import Mathlib

/-!
Verification of the directory-synchronization engine of the `hass-addons`
document-service add-ons (`doc-viewer/main.py` and `ingress-fastapi/main.py`).

The filesystem is shallowly embedded as a tree of named entries.  Every entry
carries the stat data the Python code inspects (`st_size`, `st_mtime`); a
directory's contents are a further entry list.  Timestamps and sizes are
natural numbers (the code only compares them with `<=` and `==`).

The engine's operations are translated from the source:
  * `fnmatch` — wildcard matching with `*`/`?` as used by the fixed exclusion
    lists (none of the configured patterns uses `[...]` character classes);
  * `walkFS` — `os.walk` with the in-place pruning of excluded directories and
    skipping of excluded files done by the copy and delete passes
    (`rsync_directory`, lines 292–304 and 336–345); an unreadable directory is
    skipped silently, as `os.walk` does with `onerror=None`;
  * `copyStep`/`deleteStep`/`FS.prune` — the three passes of `rsync_directory`;
  * `uploadFilesReplace` — the replace-all upload of `ingress-fastapi/main.py`
    (`shutil.rmtree` guarded by a non-empty target path, then
    `shutil.copytree(..., dirs_exist_ok=True)`);
  * `isFolderEmptyAt`/`getFolderModel` — `is_folder_empty` and the folder
    listing of `get_folder`.

Fallible syscalls that the Python code catches per item (`shutil.copy2`,
`os.remove`, unreadable directories, a failing top-level `os.makedirs`,
a failing `shutil.rmtree`) are driven by explicit boolean oracles, so that
the error-aggregation behaviour can be stated and proved.
-/

namespace DocSync

/-- Relative path, slash-separated in the source, as a list of components. -/
abbrev Path := List String

/-- Stat data of a filesystem entry: `st_size` and `st_mtime`. -/
structure FileInfo where
  size : Nat
  mtime : Nat
deriving DecidableEq, Repr

/-- A directory's contents: a finite list of named entries.  `file n i rest`
is a regular file `n` with stat `i`; `dir n m c rest` is a subdirectory `n`
with stat `m` and contents `c`.  The root directory of a walk is just its
contents (its own stat is never consulted by the code). -/
inductive FS where
  | nil : FS
  | file : String → FileInfo → FS → FS
  | dir : String → FileInfo → FS → FS → FS
deriving DecidableEq, Repr

/-- What `os.path` finds at a name: a regular file or a directory. -/
inductive Ent where
  | file : FileInfo → Ent
  | dir : FileInfo → FS → Ent
deriving DecidableEq, Repr

/-! ## fnmatch

`fnmatch.fnmatch` on POSIX is case-sensitive wildcard matching; `*` matches
any run of characters and `?` any single character.  The matcher is written
with explicit fuel so that it is structurally recursive (each step decreases
`pattern.length + name.length`, so the initial fuel is always sufficient). -/

def fnmatchAux : Nat → List Char → List Char → Bool
  | 0, _, _ => false
  | _ + 1, [], s => s.isEmpty
  | fuel + 1, '*' :: ps, s =>
    fnmatchAux fuel ps s ||
      (match s with
       | [] => false
       | _ :: cs => fnmatchAux fuel ('*' :: ps) cs)
  | _ + 1, '?' :: _, [] => false
  | fuel + 1, '?' :: ps, _ :: cs => fnmatchAux fuel ps cs
  | _ + 1, _ :: _, [] => false
  | fuel + 1, c :: ps, d :: cs => c == d && fnmatchAux fuel ps cs

/-- `fnmatch name pattern` (argument order as in Python's `fnmatch`). -/
def fnmatch (name pat : String) : Bool :=
  fnmatchAux (pat.length + name.length + 1) pat.data name.data

/-- `EXCLUDE_FILES` of both `main.py` files. -/
def EXCLUDE_FILES : List String := [".DS_Store"]

/-- `EXCLUDE_FOLDERS` of both `main.py` files. -/
def EXCLUDE_FOLDERS : List String := ["__pycache__", ".venv", ".git", ".*cache", "$RECYCLE.BIN"]

/-- `any(fnmatch(name, p) for p in EXCLUDE_FILES)`. -/
def excludedFile (name : String) : Bool :=
  EXCLUDE_FILES.any fun p => fnmatch name p

/-- `any(fnmatch(name, p) for p in EXCLUDE_FOLDERS)`. -/
def excludedFolder (name : String) : Bool :=
  EXCLUDE_FOLDERS.any fun p => fnmatch name p

/-! ## Basic filesystem operations -/

/-- First entry with the given name (names are unique in a real filesystem;
see `FS.wf`). -/
def FS.find : FS → String → Option Ent
  | .nil, _ => none
  | .file n i rest, m => if n = m then some (.file i) else rest.find m
  | .dir n me c rest, m => if n = m then some (.dir me c) else rest.find m

/-- Resolve a non-empty relative path to the entry it denotes.  The empty
path denotes the walk root itself and is resolved by the callers. -/
def FS.lookupPath : FS → Path → Option Ent
  | _, [] => none
  | fs, [n] => fs.find n
  | fs, n :: m :: rest =>
    match fs.find n with
    | some (.dir _ c) => c.lookupPath (m :: rest)
    | _ => none

/-- The file at a path, if the path resolves to a regular file. -/
def FS.lookupFile (fs : FS) (p : Path) : Option FileInfo :=
  match fs.lookupPath p with
  | some (.file i) => some i
  | _ => none

/-- `os.path.isdir` at a (non-empty) path. -/
def FS.isDirAt (fs : FS) (p : Path) : Bool :=
  match fs.lookupPath p with
  | some (.dir _ _) => true
  | _ => false

/-- Replace the first entry named `n` by `e`, or append a new entry `n`
when no entry has that name. -/
def FS.setEntry : FS → String → Ent → FS
  | .nil, n, .file i => .file n i .nil
  | .nil, n, .dir me c => .dir n me c .nil
  | .file n i rest, m, e =>
    if n = m then
      match e with
      | .file j => .file n j rest
      | .dir me c => .dir n me c rest
    else .file n i (rest.setEntry m e)
  | .dir n me c rest, m, e =>
    if n = m then
      match e with
      | .file j => .file n j rest
      | .dir me' c' => .dir n me' c' rest
    else .dir n me c (rest.setEntry m e)

/-- Fresh chain of directories for the missing part of an `os.makedirs`
call.  Created directories get default stat data `⟨0, 0⟩`; a directory's
stat is only ever consulted in the degenerate comparison of a source file
against a directory sitting at its target path. -/
def mkChain : Path → FS
  | [] => .nil
  | n :: rest => .dir n ⟨0, 0⟩ (mkChain rest) .nil

/-- `os.makedirs(path, exist_ok=True)`: create the missing directories along
the path; `none` when a regular file occupies one of the components (the
call raises in that case). -/
def FS.mkdirs : FS → Path → Option FS
  | fs, [] => some fs
  | fs, n :: rest =>
    match fs.find n with
    | some (.file _) => none
    | some (.dir me c) => (c.mkdirs rest).map fun c' => fs.setEntry n (.dir me c')
    | none => some (fs.setEntry n (.dir ⟨0, 0⟩ (mkChain rest)))

/-- All directories along the path already exist. -/
def FS.dirsPresent : FS → Path → Bool
  | _, [] => true
  | fs, n :: rest =>
    match fs.find n with
    | some (.dir _ c) => c.dirsPresent rest
    | _ => false

/-- Write a file at a path whose parent directories exist (`shutil.copy2`
onto a fresh or existing regular file).  In `rsync_directory` every write is
preceded by `os.makedirs(dirname, exist_ok=True)` and guarded against a
directory sitting at the path, so the two defensive branches (a blocking
file, a missing parent) are unreachable at the call sites. -/
def FS.setFile : FS → Path → FileInfo → FS
  | fs, [], _ => fs
  | fs, [n], i => fs.setEntry n (.file i)
  | fs, n :: m :: rest, i =>
    match fs.find n with
    | some (.dir me c) => fs.setEntry n (.dir me (c.setFile (m :: rest) i))
    | some (.file _) => fs
    | none => fs.setEntry n (.dir ⟨0, 0⟩ (FS.nil.setFile (m :: rest) i))

/-- Remove the first regular file named `n` from an entry list
(`os.remove` of a direct child). -/
def FS.removeFileEntry : FS → String → FS
  | .nil, _ => .nil
  | .file n i rest, m => if n = m then rest else .file n i (rest.removeFileEntry m)
  | .dir n me c rest, m => .dir n me c (rest.removeFileEntry m)

/-- `os.remove` at a relative path; a path that does not resolve leaves the
tree unchanged (the call sites only remove files just yielded by a walk). -/
def FS.removeFile : FS → Path → FS
  | fs, [] => fs
  | fs, [n] => fs.removeFileEntry n
  | fs, n :: m :: rest =>
    match fs.find n with
    | some (.dir me c) => fs.setEntry n (.dir me (c.removeFile (m :: rest)))
    | _ => fs

/-- Remove the first directory entry named `n` (`shutil.rmtree` of a direct
child). -/
def FS.removeDirEntry : FS → String → FS
  | .nil, _ => .nil
  | .file n i rest, m => .file n i (rest.removeDirEntry m)
  | .dir n me c rest, m => if n = m then rest else .dir n me c (rest.removeDirEntry m)

/-- `shutil.rmtree` at a relative path (callers guard that the path resolves
to a directory). -/
def FS.removeTree : FS → Path → FS
  | fs, [] => fs
  | fs, [n] => fs.removeDirEntry n
  | fs, n :: m :: rest =>
    match fs.find n with
    | some (.dir me c) => fs.setEntry n (.dir me (c.removeTree (m :: rest)))
    | _ => fs

/-- Names of the entries of a directory. -/
def FS.names : FS → List String
  | .nil => []
  | .file n _ rest => n :: rest.names
  | .dir n _ _ rest => n :: rest.names

/-- Well-formed directory contents: entry names are distinct at every level
(guaranteed by a real filesystem, where a name denotes at most one entry). -/
def FS.wf : FS → Bool
  | .nil => true
  | .file n _ rest => !(decide (n ∈ rest.names)) && rest.wf
  | .dir n _ c rest => !(decide (n ∈ rest.names)) && c.wf && rest.wf

/-- No entries at all (`os.listdir(path) == []`). -/
def FS.isNil : FS → Bool
  | .nil => true
  | _ => false

/-! ## The walk of the copy and delete passes

`os.walk` with `dirs[:] = [d for d in dirs if not excluded(d)]` and excluded
files skipped, as in the copy pass (lines 292–304) and the delete pass
(lines 336–345) of `rsync_directory`.  `u` tells which directories (by
relative path) are unreadable; `os.walk` with `onerror=None` silently treats
such a directory as having no contents.  Entries are
visited in entry-list order; the Python code visits a directory's files
before its subdirectories's, but no property below depends on the order. -/

def walkFS (u : Path → Bool) : Path → FS → List (Path × FileInfo)
  | _, .nil => []
  | pre, .file n i rest =>
    (if excludedFile n then [] else [(pre ++ [n], i)]) ++ walkFS u pre rest
  | pre, .dir n _ c rest =>
    (if excludedFolder n || u (pre ++ [n]) then [] else walkFS u (pre ++ [n]) c)
      ++ walkFS u pre rest

/-- Walk from the root; an unreadable root yields nothing, exactly as
`os.walk` with `onerror=None` does. -/
def walkRoot (u : Path → Bool) (fs : FS) : List (Path × FileInfo) :=
  if u [] then [] else walkFS u [] fs

/-! ## The prune pass

`os.walk(target_path, topdown=False)` followed by `os.rmdir` of every
subdirectory whose `os.listdir` is empty (lines 359–367).  Note that this
walk does **not** filter excluded directories, and the `target_path` root
itself is never a member of any `dirs` list, hence never removed.  An
`OSError` (non-empty or unreadable directory) is ignored; an unreadable
directory is also never descended into, so its contents are left as-is. -/

def FS.prune (u : Path → Bool) : Path → FS → FS
  | _, .nil => .nil
  | pre, .file n i rest => .file n i (FS.prune u pre rest)
  | pre, .dir n me c rest =>
    if u (pre ++ [n]) then .dir n me c (FS.prune u pre rest)
    else
      let c' := FS.prune u (pre ++ [n]) c
      if c'.isNil then FS.prune u pre rest
      else .dir n me c' (FS.prune u pre rest)

/-- The prune pass from the root; an unreadable root makes the walk yield
nothing, so nothing is removed. -/
def FS.pruneRoot (u : Path → Bool) (fs : FS) : FS :=
  if u [] then fs else FS.prune u [] fs

/-! ## The incremental sync (`rsync_directory`, doc-viewer) -/

/-- One entry of the report's `errors` list, identified by failing path and
cause as the source's message strings do. -/
inductive ErrEntry where
  | copyErr : Path → ErrEntry
  | deleteErr : Path → ErrEntry
  | general : ErrEntry
deriving DecidableEq, Repr

/-- The `operations` dict built by `rsync_directory`. -/
structure Ops where
  copied : List Path
  deleted : List Path
  errors : List ErrEntry
deriving DecidableEq, Repr

/-- State of the copy pass: current target tree, the `source_files` set, and
the report lists built so far.  `aborted` records that an exception escaped
to the outer `try` (only `os.makedirs` of an intermediate directory can
raise outside the per-file `try`), which appends a general error and skips
the rest of the walk and the delete and prune passes. -/
structure CopyState where
  target : FS
  srcPaths : List Path
  copied : List Path
  errors : List ErrEntry
  aborted : Bool
deriving Repr

/-- `should_copy` (lines 313–323): copy unless the target path exists with
equal size and a modification time at least the source's.  `os.stat` data of
whatever sits at the path is compared — for a directory, its own stat. -/
def shouldCopy (t : FS) (p : Path) (i : FileInfo) : Bool :=
  match t.lookupPath p with
  | none => true
  | some (.file j) => !(decide (i.mtime ≤ j.mtime) && decide (i.size = j.size))
  | some (.dir m _) => !(decide (i.mtime ≤ m.mtime) && decide (i.size = m.size))

/-- Body of the copy-pass loop for one walked source file (lines 298–332):
record the relative path in `source_files`, `os.makedirs` the target file's
directory, decide `should_copy`, and copy inside a per-file `try`.
`cf p` makes `shutil.copy2` fail at `p`; copying onto a directory fails
unconditionally (`IsADirectoryError`). -/
def copyStep (cf : Path → Bool) (st : CopyState) (pi : Path × FileInfo) : CopyState :=
  if st.aborted then st
  else
    let st1 := { st with srcPaths := st.srcPaths ++ [pi.1] }
    match st1.target.mkdirs pi.1.dropLast with
    | none => { st1 with errors := st1.errors ++ [.general], aborted := true }
    | some t1 =>
      if shouldCopy t1 pi.1 pi.2 then
        if cf pi.1 || t1.isDirAt pi.1 then
          { st1 with target := t1, errors := st1.errors ++ [.copyErr pi.1] }
        else
          { st1 with target := t1.setFile pi.1 pi.2, copied := st1.copied ++ [pi.1] }
      else { st1 with target := t1 }

/-- State of the delete pass. -/
structure DelState where
  target : FS
  deleted : List Path
  errors : List ErrEntry
deriving Repr

/-- Body of the delete-pass loop for one walked target file (lines 342–357):
delete it unless its relative path is in `source_files`; a failing
`os.remove` (`rf p`) appends an error and continues. -/
def deleteStep (rf : Path → Bool) (srcPaths : List Path) (st : DelState)
    (pi : Path × FileInfo) : DelState :=
  if pi.1 ∈ srcPaths then st
  else if rf pi.1 then { st with errors := st.errors ++ [.deleteErr pi.1] }
  else { st with target := st.target.removeFile pi.1, deleted := st.deleted ++ [pi.1] }

/-- Input of one `rsync_directory` call.  `target = none` means the target
path did not exist yet (the top-level `os.makedirs` creates it empty);
`topMkdirFails` makes that `os.makedirs(target_path, exist_ok=True)` raise —
the only statement outside the big `try`, hence the only hard failure.
`srcUnread`/`tgtUnread` give the unreadable directories of the source and
target walks, `copyFail`/`removeFail` the per-file failures. -/
structure SyncInput where
  source : FS
  target : Option FS
  topMkdirFails : Bool
  srcUnread : Path → Bool
  tgtUnread : Path → Bool
  copyFail : Path → Bool
  removeFail : Path → Bool

/-- The copy pass (lines 289–332) as a fold over the source walk. -/
def copyPass (inp : SyncInput) (t0 : FS) : CopyState :=
  (walkRoot inp.srcUnread inp.source).foldl (copyStep inp.copyFail)
    ⟨t0, [], [], [], false⟩

/-- The delete pass (lines 334–357) as a fold over the walk of the target
tree left by the copy pass.  (The guard `os.path.exists(target_path)` of
line 335 is always true here: the top-level `os.makedirs` created the
directory and nothing removes it.) -/
def deletePass (inp : SyncInput) (cs : CopyState) : DelState :=
  (walkRoot inp.tgtUnread cs.target).foldl
    (deleteStep inp.removeFail cs.srcPaths) ⟨cs.target, [], cs.errors⟩

/-- The three passes of `rsync_directory` after the top-level `os.makedirs`
succeeded.  When the copy pass aborted with a general error, the delete and
prune passes are skipped and the report built so far is returned (the outer
`except` appends the error and falls through to `return operations`). -/
def rsyncRun (inp : SyncInput) : FS × Ops :=
  let cs := copyPass inp (inp.target.getD .nil)
  if cs.aborted then (cs.target, ⟨cs.copied, [], cs.errors⟩)
  else
    let ds := deletePass inp cs
    (ds.target.pruneRoot inp.tgtUnread, ⟨cs.copied, ds.deleted, ds.errors⟩)

/-- Unfolding equation for `rsyncRun`. -/
theorem rsyncRun_eq (inp : SyncInput) :
    rsyncRun inp =
      if (copyPass inp (inp.target.getD .nil)).aborted then
        ((copyPass inp (inp.target.getD .nil)).target,
          ⟨(copyPass inp (inp.target.getD .nil)).copied, [],
            (copyPass inp (inp.target.getD .nil)).errors⟩)
      else
        ((deletePass inp (copyPass inp (inp.target.getD .nil))).target.pruneRoot inp.tgtUnread,
          ⟨(copyPass inp (inp.target.getD .nil)).copied,
            (deletePass inp (copyPass inp (inp.target.getD .nil))).deleted,
            (deletePass inp (copyPass inp (inp.target.getD .nil))).errors⟩) := rfl

/-- `rsync_directory`: the call propagates an exception to the caller only
when the top-level `os.makedirs(target_path, exist_ok=True)` raises;
everything else ends in a returned report. -/
def rsyncDirectory (inp : SyncInput) : Except Unit (FS × Ops) :=
  if inp.topMkdirFails then .error () else .ok (rsyncRun inp)

/-! ## The replace-all upload (`upload_files`, ingress-fastapi, lines 415–427)

`shutil.copytree(temp_dir, target_full_path, dirs_exist_ok=True)` after an
optional `shutil.rmtree(target_full_path)` that is guarded by
`os.path.exists(target_full_path) and target_path` — the truthiness test on
the raw form string keeps the document root itself from being removed. -/

/-- Merge the source contents into the target contents
(`copytree(..., dirs_exist_ok=True)` at one directory level): source files
overwrite, source subdirectories are merged recursively (copying the source
directory's stat), entries only present in the target are kept.  A source
file meeting a target *directory* of the same name is handed to
`shutil.copy2`, which sees `os.path.isdir(dst)` and copies the file *into*
that directory under its own base name (overwriting a file of that name;
a second directory of that name inside makes the inner `copyfile` raise).
`none` when the call raises — creating a directory over a file
(`os.makedirs` with `exist_ok=True` still raises on a file) or the inner
`copyfile` conflict above — which `upload_files` surfaces as a failed
call. -/
def copytreeMerge : FS → FS → Option FS
  | dst, .nil => some dst
  | dst, .file n i rest =>
    match dst.find n with
    | some (.dir m dc) =>
      match dc.find n with
      | some (.dir _ _) => none
      | _ => copytreeMerge (dst.setEntry n (.dir m (dc.setEntry n (.file i)))) rest
    | _ => copytreeMerge (dst.setEntry n (.file i)) rest
  | dst, .dir n m c rest =>
    match dst.find n with
    | some (.file _) => none
    | some (.dir _ dc) =>
      match copytreeMerge dc c with
      | none => none
      | some dc' => copytreeMerge (dst.setEntry n (.dir m dc')) rest
    | none =>
      match copytreeMerge FS.nil c with
      | none => none
      | some c' => copytreeMerge (dst.setEntry n (.dir m c')) rest

/-- `shutil.copytree(src, root/tp, dirs_exist_ok=True)`: create the missing
directories along `tp` (raising when a regular file blocks a component) and
merge the source into the directory at `tp`. -/
def copytreeAt : FS → Path → FS → Option FS
  | dst, [], src => copytreeMerge dst src
  | dst, n :: rest, src =>
    match dst.find n with
    | some (.file _) => none
    | some (.dir m c) => (copytreeAt c rest src).map fun c' => dst.setEntry n (.dir m c')
    | none => (copytreeAt FS.nil rest src).map fun c' => dst.setEntry n (.dir ⟨0, 0⟩ c')

/-- `os.path.exists(os.path.join(DOCS_ROOT, tp) if tp else DOCS_ROOT)`:
the document root itself always exists. -/
def pathExistsIn (root : FS) (tp : Path) : Bool :=
  tp.isEmpty || (root.lookupPath tp).isSome

/-- The success message of `upload_files`
(`f"Folder uploaded successfully to {target_path or 'root'}"`). -/
def uploadMsg (tp : Path) : String :=
  "Folder uploaded successfully to " ++ (if tp.isEmpty then "root" else String.intercalate "/" tp)

/-- The replace-all upload after staging: the resolved target is wiped with
`shutil.rmtree` when it exists and the target path is non-empty, then the
staged source is copied over it.  `rmtreeFail` makes the `rmtree` raise;
any raised exception is answered with HTTP 400 and no further work
(`.error ()`).  On success the endpoint returns the new document root and
the message — the `UploadResponse` of this service carries no operation
lists at all. -/
def uploadFilesReplace (docRoot : FS) (tp : Path) (src : FS) (rmtreeFail : Bool) :
    Except Unit (FS × String) :=
  if pathExistsIn docRoot tp && !tp.isEmpty then
    match docRoot.lookupPath tp with
    | some (.dir _ _) =>
      if rmtreeFail then .error ()
      else
        match copytreeAt (docRoot.removeTree tp) tp src with
        | none => .error ()
        | some t => .ok (t, uploadMsg tp)
    | _ => .error ()
  else
    match copytreeAt docRoot tp src with
    | none => .error ()
    | some t => .ok (t, uploadMsg tp)

/-! ## The folder listing (`get_folder` and `is_folder_empty`) -/

/-- The loop body of `is_folder_empty` (lines 45–56): `False` as soon as one
item is a non-excluded file or a non-excluded directory — one level deep,
the contents of subdirectories are never examined. -/
def allEntriesExcluded : FS → Bool
  | .nil => true
  | .file n _ rest => excludedFile n && allEntriesExcluded rest
  | .dir n _ _ rest => excludedFolder n && allEntriesExcluded rest

/-- `is_folder_empty(folder_path)` for the directory at path `p` with
contents `c`; an `OSError`/`PermissionError` (unreadable directory, `u p`)
makes the folder count as empty. -/
def isFolderEmptyAt (u : Path → Bool) (p : Path) (c : FS) : Bool :=
  u p || allEntriesExcluded c

/-- Insertion of a name into a sorted list of names (`sorted(...)` of
`get_folder`; only order-insensitive facts are proved about listings). -/
def insertName (s : String) : List String → List String
  | [] => [s]
  | t :: rest => if compare s t = .gt then t :: insertName s rest else s :: t :: rest

/-- `sorted(names)`. -/
def sortNames : List String → List String
  | [] => []
  | s :: rest => insertName s (sortNames rest)

/-- The subfolder filter of `get_folder` (lines 214–220): a directory entry
is listed when it is not excluded and not empty per `is_folder_empty`. -/
def foldersOf (u : Path → Bool) (base : Path) : FS → List String
  | .nil => []
  | .file _ _ rest => foldersOf u base rest
  | .dir n _ c rest =>
    (if !excludedFolder n && !isFolderEmptyAt u (base ++ [n]) c then [n] else [])
      ++ foldersOf u base rest

/-- The file filter of `get_folder` (lines 221–226): a file entry is listed
when it is not excluded. -/
def filesOf : FS → List String
  | .nil => []
  | .file n _ rest => (if !excludedFile n then [n] else []) ++ filesOf rest
  | .dir _ _ _ rest => filesOf rest

/-- The `folders`/`files` component of the `FolderModel` answer. -/
structure FolderListing where
  folders : List String
  files : List String
deriving DecidableEq, Repr

/-- `get_folder` for the directory at `base` with contents `c` (the 404 path
for a missing directory is handled in the HTTP layer above this model). -/
def getFolderModel (u : Path → Bool) (base : Path) (c : FS) : FolderListing :=
  ⟨sortNames (foldersOf u base c), sortNames (filesOf c)⟩

/-- The claim's notion of folder emptiness, stated for comparison with the
implemented `is_folder_empty`: recursive — a directory containing only
excluded entries, or only subdirectories that are themselves empty after
exclusion, counts as empty. -/
def folderEmptyRecClaim : FS → Bool
  | .nil => true
  | .file n _ rest => excludedFile n && folderEmptyRecClaim rest
  | .dir n _ c rest => (excludedFolder n || folderEmptyRecClaim c) && folderEmptyRecClaim rest

/-! ## Path hygiene -/

/-- A relative path none of whose directory components matches an excluded
folder pattern and whose file name does not match an excluded file pattern —
the shape of every path the copy and delete walks can yield. -/
def cleanPath : Path → Bool
  | [] => false
  | [n] => !excludedFile n
  | n :: m :: rest => !excludedFolder n && cleanPath (m :: rest)

/-! ## Basic lemmas about the filesystem operations -/

theorem find_setEntry (fs : FS) (n : String) (e : Ent) (m : String) :
    (fs.setEntry n e).find m = if m = n then some e else fs.find m := by
  induction fs with
  | nil =>
    by_cases h : m = n
    · subst h; cases e <;> simp [FS.setEntry, FS.find]
    · cases e <;> simp [FS.setEntry, FS.find, h, Ne.symm h]
  | file a i rest ih =>
    by_cases han : a = n
    · subst han
      by_cases h : m = a
      · subst h; cases e <;> simp [FS.setEntry, FS.find]
      · cases e <;> simp [FS.setEntry, FS.find, h, Ne.symm h]
    · by_cases h : m = a
      · subst h; simp [FS.setEntry, FS.find, han]
      · simp [FS.setEntry, FS.find, han, h, Ne.symm h, ih]
  | dir a me c rest ihc ihr =>
    by_cases han : a = n
    · subst han
      by_cases h : m = a
      · subst h; cases e <;> simp [FS.setEntry, FS.find]
      · cases e <;> simp [FS.setEntry, FS.find, h, Ne.symm h]
    · by_cases h : m = a
      · subst h; simp [FS.setEntry, FS.find, han]
      · simp [FS.setEntry, FS.find, han, h, Ne.symm h, ihr]

theorem find_eq_none_of_not_mem_names (fs : FS) (n : String)
    (h : n ∉ fs.names) : fs.find n = none := by
  induction fs with
  | nil => rfl
  | file a i rest ih =>
    simp [FS.names] at h
    simp [FS.find, Ne.symm h.1, ih h.2]
  | dir a me c rest ihc ihr =>
    simp [FS.names] at h
    simp [FS.find, Ne.symm h.1, ihr h.2]

/-- Resolution of a non-empty path, in terms of the head entry. -/
theorem lookupPath_cons (fs : FS) (q : String) (tail : Path) :
    fs.lookupPath (q :: tail) =
      match fs.find q with
      | some (.file i) => if tail = [] then some (.file i) else none
      | some (.dir me c) => if tail = [] then some (.dir me c) else c.lookupPath tail
      | none => none := by
  cases tail with
  | nil =>
    simp only [FS.lookupPath]
    cases fs.find q with
    | none => rfl
    | some e => cases e <;> rfl
  | cons m rest =>
    simp only [FS.lookupPath]
    cases fs.find q with
    | none => rfl
    | some e => cases e <;> simp

theorem lookupFile_nil_path (fs : FS) : fs.lookupFile [] = none := rfl

theorem wf_file_iff {n : String} {i : FileInfo} {rest : FS} :
    (FS.file n i rest).wf = true ↔ n ∉ rest.names ∧ rest.wf = true := by
  simp [FS.wf]

theorem wf_dir_iff {n : String} {me : FileInfo} {c rest : FS} :
    (FS.dir n me c rest).wf = true ↔ n ∉ rest.names ∧ c.wf = true ∧ rest.wf = true := by
  simp [FS.wf, and_assoc]

theorem lookupFile_nil_fs (p : Path) : FS.nil.lookupFile p = none := by
  match p with
  | [] => rfl
  | [n] => rfl
  | n :: m :: rest => rfl

theorem lookupFile_single (fs : FS) (q : String) :
    fs.lookupFile [q] =
      match fs.find q with
      | some (.file i) => some i
      | _ => none := rfl

theorem lookupFile_cons2 (fs : FS) (q m : String) (tail : Path) :
    fs.lookupFile (q :: m :: tail) =
      match fs.find q with
      | some (.dir _ c) => c.lookupFile (m :: tail)
      | _ => none := by
  cases hf : fs.find q with
  | none => simp [FS.lookupFile, FS.lookupPath, hf]
  | some e => cases e <;> simp [FS.lookupFile, FS.lookupPath, hf]

theorem lookupFile_cons_eq_of_find_eq {fs fs' : FS} {q : String}
    (h : fs.find q = fs'.find q) (tail : Path) :
    fs.lookupFile (q :: tail) = fs'.lookupFile (q :: tail) := by
  cases tail with
  | nil => rw [lookupFile_single, lookupFile_single, h]
  | cons m t' => rw [lookupFile_cons2, lookupFile_cons2, h]

/-- `setEntry` at a name that does not hold a directory never makes a
resolvable path unresolvable: the touched name still resolves one level
(nothing deeper resolved before), other names are untouched. -/
theorem lookupPath_isSome_setEntry_nondir (dst : FS) (n : String) (e : Ent)
    (hnd : ∀ me dc, dst.find n ≠ some (.dir me dc)) :
    ∀ p : Path, (dst.lookupPath p).isSome = true →
      ((dst.setEntry n e).lookupPath p).isSome = true := by
  intro p h
  match p with
  | [] => simp [FS.lookupPath] at h
  | [q] =>
    rw [lookupPath_cons] at h ⊢
    rw [find_setEntry]
    by_cases hq : q = n
    · rw [if_pos hq]
      cases e <;> rfl
    · rw [if_neg hq]
      exact h
  | q :: m2 :: t2 =>
    rw [lookupPath_cons] at h ⊢
    rw [find_setEntry]
    by_cases hq : q = n
    · exfalso
      rw [hq] at h
      cases hf : dst.find n with
      | none =>
        rw [hf] at h
        exact Bool.noConfusion h
      | some e0 =>
        cases e0 with
        | file j =>
          rw [hf] at h
          have h2 : (if (m2 :: t2 : Path) = [] then some (Ent.file j)
              else none).isSome = true := h
          rw [if_neg (by simp : ¬ (m2 :: t2 : Path) = [])] at h2
          exact Bool.noConfusion h2
        | dir me dc => exact absurd hf (hnd me dc)
    · rw [if_neg hq]
      exact h

/-- `setEntry` replacing a directory by a directory whose contents resolve
at least as much never makes a resolvable path unresolvable. -/
theorem lookupPath_isSome_setEntry_dir (dst : FS) (n : String)
    (me m2 : FileInfo) (dc dc2 : FS) (hf : dst.find n = some (.dir me dc))
    (hmono : ∀ q : Path, (dc.lookupPath q).isSome = true →
      (dc2.lookupPath q).isSome = true) :
    ∀ p : Path, (dst.lookupPath p).isSome = true →
      ((dst.setEntry n (.dir m2 dc2)).lookupPath p).isSome = true := by
  intro p h
  match p with
  | [] => simp [FS.lookupPath] at h
  | [q] =>
    rw [lookupPath_cons] at h ⊢
    rw [find_setEntry]
    by_cases hq : q = n
    · rw [if_pos hq]
      rfl
    · rw [if_neg hq]
      exact h
  | q :: m3 :: t3 =>
    rw [lookupPath_cons] at h ⊢
    rw [find_setEntry]
    by_cases hq : q = n
    · rw [if_pos hq]
      rw [hq, hf] at h
      have h2 : (if (m3 :: t3 : Path) = [] then some (Ent.dir me dc)
          else dc.lookupPath (m3 :: t3)).isSome = true := h
      rw [if_neg (by simp : ¬ (m3 :: t3 : Path) = [])] at h2
      show (if (m3 :: t3 : Path) = [] then some (Ent.dir m2 dc2)
          else dc2.lookupPath (m3 :: t3)).isSome = true
      rw [if_neg (by simp : ¬ (m3 :: t3 : Path) = [])]
      exact hmono _ h2
    · rw [if_neg hq]
      exact h

/-- `copytree(..., dirs_exist_ok=True)` only adds and overwrites, it never
removes: every path that resolved in the target before the merge still
resolves to something after it. -/
theorem copytreeMerge_isSome (src : FS) :
    ∀ dst t : FS, copytreeMerge dst src = some t →
      ∀ p : Path, (dst.lookupPath p).isSome = true → (t.lookupPath p).isSome = true := by
  induction src with
  | nil =>
    intro dst t h p hp
    have h2 : some dst = some t := h
    injection h2 with h2
    subst h2
    exact hp
  | file n i rest ih =>
    intro dst t h p hp
    cases hf : dst.find n with
    | none =>
      simp only [copytreeMerge, hf] at h
      exact ih _ t h p
        (lookupPath_isSome_setEntry_nondir dst n (.file i) (by simp [hf]) p hp)
    | some e =>
      cases e with
      | file j =>
        simp only [copytreeMerge, hf] at h
        exact ih _ t h p
          (lookupPath_isSome_setEntry_nondir dst n (.file i) (by simp [hf]) p hp)
      | dir me dc =>
        simp only [copytreeMerge, hf] at h
        cases hdc : dc.find n with
        | none =>
          rw [hdc] at h
          refine ih _ t h p
            (lookupPath_isSome_setEntry_dir dst n me me dc
              (dc.setEntry n (.file i)) hf ?_ p hp)
          exact lookupPath_isSome_setEntry_nondir dc n (.file i) (by simp [hdc])
        | some e2 =>
          cases e2 with
          | file j =>
            rw [hdc] at h
            refine ih _ t h p
              (lookupPath_isSome_setEntry_dir dst n me me dc
                (dc.setEntry n (.file i)) hf ?_ p hp)
            exact lookupPath_isSome_setEntry_nondir dc n (.file i) (by simp [hdc])
          | dir me2 c2 =>
            rw [hdc] at h
            exact Option.noConfusion h
  | dir n m c rest ihc ihr =>
    intro dst t h p hp
    cases hf : dst.find n with
    | none =>
      simp only [copytreeMerge, hf] at h
      cases hnil : copytreeMerge FS.nil c with
      | none =>
        rw [hnil] at h
        exact Option.noConfusion h
      | some c2 =>
        rw [hnil] at h
        exact ihr _ t h p
          (lookupPath_isSome_setEntry_nondir dst n (.dir m c2) (by simp [hf]) p hp)
    | some e =>
      cases e with
      | file j =>
        simp only [copytreeMerge, hf] at h
        exact Option.noConfusion h
      | dir me dc =>
        simp only [copytreeMerge, hf] at h
        cases hdc : copytreeMerge dc c with
        | none =>
          rw [hdc] at h
          exact Option.noConfusion h
        | some dc2 =>
          rw [hdc] at h
          exact ihr _ t h p
            (lookupPath_isSome_setEntry_dir dst n me m dc dc2 hf
              (fun q => ihc dc dc2 hdc q) p hp)

/-! ## Concrete fixtures used by witnesses and counterexamples -/

/-- The all-succeed / all-readable oracle. -/
def noFail : Path → Bool := fun _ => false

/-- Oracle making only the top-level source directory unreadable. -/
def topUnread : Path → Bool := fun p => decide (p = [])

def exSourceC6 : FS := .file "a.txt" ⟨1, 5⟩ .nil

def exTargetC6 : FS := .file "c.txt" ⟨2, 3⟩ .nil

def exInputC6 : SyncInput := ⟨exSourceC6, some exTargetC6, false, topUnread, noFail, noFail, noFail⟩

def exRootC7 : FS := .dir "sub" ⟨0, 0⟩ (.file "old.txt" ⟨1, 1⟩ .nil) .nil

def exSrcC7 : FS := .file "new.txt" ⟨2, 2⟩ .nil

def exResultC7 : FS := .dir "sub" ⟨0, 0⟩ (.file "new.txt" ⟨2, 2⟩ .nil) .nil

def exRootC5 : FS := .file "keep.txt" ⟨1, 1⟩ .nil

def exSrcC5 : FS := .file "new.txt" ⟨2, 2⟩ .nil

def exMergedC5 : FS := .file "keep.txt" ⟨1, 1⟩ (.file "new.txt" ⟨2, 2⟩ .nil)

def exRootC5b : FS := .dir "a" ⟨0, 0⟩ (.file "a" ⟨1, 1⟩ .nil) (.file "keep.txt" ⟨1, 1⟩ .nil)

def exSrcC5b : FS := .file "a" ⟨9, 9⟩ .nil

def exMergedC5b : FS := .dir "a" ⟨0, 0⟩ (.file "a" ⟨9, 9⟩ .nil) (.file "keep.txt" ⟨1, 1⟩ .nil)

def exParentC9 : FS := .dir "b" ⟨0, 0⟩ (.dir "sub" ⟨0, 0⟩ .nil .nil) .nil

def exSourceC10 : FS := .file "a.txt" ⟨5, 10⟩ (.dir "sub" ⟨0, 0⟩ (.file "b.txt" ⟨3, 10⟩ .nil) .nil)

def exTargetC10 : FS := .file "a.txt" ⟨5, 20⟩ (.file "c.txt" ⟨2, 1⟩ .nil)

def exInputC10 : SyncInput := ⟨exSourceC10, some exTargetC10, false, noFail, noFail, noFail, noFail⟩

def exSourceC2 : FS := .file "a.txt" ⟨1, 5⟩ .nil

def exTargetC2 : FS :=
  .file "a.txt" ⟨1, 9⟩ (.dir ".git" ⟨0, 0⟩ (.dir "sub" ⟨0, 0⟩ .nil .nil) .nil)

def exInputC2 : SyncInput := ⟨exSourceC2, some exTargetC2, false, noFail, noFail, noFail, noFail⟩

/-! ## Claim C5 — the document root is never deleted -/

/-- **C5.** For a sync whose target path argument is the empty string the
document root itself is never deleted: (1) under ReplaceAll the
`shutil.rmtree` branch is skipped entirely (the guard `... and target_path`
is false) and the upload reduces to merging the staged source over the
existing root; (2) that merge only adds and overwrites, it removes nothing
— every path resolvable in the root before the merge still resolves after
it, so neither the root nor anything inside it is deleted; (3) under
Incremental the call always returns a root tree — files are removed with
`os.remove` and only subdirectories are ever `os.rmdir`ed, the root is no
`dirs` member of any walk triple. -/
theorem C5_empty_target_root_protected :
    (∀ (root src : FS) (rf : Bool),
        uploadFilesReplace root [] src rf =
          match copytreeMerge root src with
          | none => Except.error ()
          | some t => Except.ok (t, uploadMsg []))
    ∧ (∀ (src root t : FS), copytreeMerge root src = some t →
        ∀ p : Path, (root.lookupPath p).isSome = true →
          (t.lookupPath p).isSome = true)
    ∧ (∀ inp : SyncInput, inp.topMkdirFails = false →
        rsyncDirectory inp = Except.ok (rsyncRun inp)) := by
  refine ⟨?_, fun src root t => copytreeMerge_isSome src root t, ?_⟩
  · intro root src rf
    simp [uploadFilesReplace, pathExistsIn, copytreeAt]
  · intro inp h
    simp [rsyncDirectory, h]

/-- Concrete instance of C5, exercising the faithful `shutil.copy2`
semantics: the staged file `a` meets the root directory `a/` and is copied
*into* it (overwriting `a/a`); the pre-existing root entries — the
directory `a` itself, the old `a/a`, `keep.txt` — all still resolve. -/
theorem C5_witness :
    copytreeMerge exRootC5b exSrcC5b = some exMergedC5b ∧
    uploadFilesReplace exRootC5b [] exSrcC5b false
      = Except.ok (exMergedC5b, uploadMsg []) ∧
    (exRootC5b.lookupPath ["a", "a"]).isSome = true ∧
    ((exMergedC5b.lookupPath ["a", "a"]).isSome = true ∧
      (exMergedC5b.lookupPath ["keep.txt"]).isSome = true) :=
  ⟨by decide, rfl, by decide,
    C5_empty_target_root_protected.2.1 exSrcC5b exRootC5b exMergedC5b (by decide)
      ["a", "a"] (by decide),
    C5_empty_target_root_protected.2.1 exSrcC5b exRootC5b exMergedC5b (by decide)
      ["keep.txt"] (by decide)⟩

/-! ## Claim C6 — hard failures of the incremental sync -/

/-- **C6 (amended).** `rsync_directory` propagates a hard error to its
caller exactly when the top-level `os.makedirs(target_path, exist_ok=True)`
fails — the only statement outside the all-enclosing `try`.  Contrary to the
original claim, a source directory that is unreadable at the top level does
*not* abort the call (`os.walk` silently yields nothing, see
`C6_counterexample`), and a target path resolving outside the document root
is not detected at all. -/
theorem C6_hard_error_iff_top_mkdir_fails :
    ∀ inp : SyncInput,
      (rsyncDirectory inp = Except.error ()) ↔ inp.topMkdirFails = true := by
  intro inp
  unfold rsyncDirectory
  by_cases h : inp.topMkdirFails = true
  · simp [h]
  · simp [h]

/-- **C6, counterexample to the original claim.**  With the source directory
unreadable at the top level (and nothing else wrong), the call does not
propagate a hard error: it returns an ordinary report — and, since the walk
of the unreadable source yields nothing, the delete pass even removes every
target file. -/
theorem C6_counterexample :
    rsyncDirectory exInputC6 = Except.ok (FS.nil, ⟨[], [["c.txt"]], []⟩) := by
  rfl

/-! ## Claim C7 — ReplaceAll wholesale delete -/

/-- **C7 (amended).** Under ReplaceAll, when the resolved target path exists
as a directory and is not the document root, it is wholesale-deleted with
`shutil.rmtree` *before* the copy (the result is exactly `copytree` applied
to the root with the target subtree removed), and a failing `rmtree` aborts
the whole call with a single error before any copying.  Nothing about the
removal is recorded in the success response, which carries only a message
(`C7_counterexample`). -/
theorem C7_replace_all_wipe_then_copy :
    (∀ (root src : FS) (tp : Path) (me : FileInfo) (c : FS), tp ≠ [] →
        root.lookupPath tp = some (.dir me c) →
        uploadFilesReplace root tp src false =
          match copytreeAt (root.removeTree tp) tp src with
          | none => Except.error ()
          | some t => Except.ok (t, uploadMsg tp))
    ∧ (∀ (root src : FS) (tp : Path) (me : FileInfo) (c : FS), tp ≠ [] →
        root.lookupPath tp = some (.dir me c) →
        uploadFilesReplace root tp src true = Except.error ()) := by
  constructor <;>
    · intro root src tp me c htp hdir
      simp [uploadFilesReplace, pathExistsIn, hdir, htp]

/-- **C7, counterexample to the "recorded as an entry" part.**  A successful
ReplaceAll upload that wholesale-deleted a non-empty existing target
directory (`old.txt` was destroyed) returns *exactly* the same output as one
that found no existing target and deleted nothing: the response is only the
new tree and a fixed message; no "removed existing directory" entry (nor any
operation list) exists anywhere in it. -/
theorem C7_counterexample :
    uploadFilesReplace exRootC7 ["sub"] exSrcC7 false
        = Except.ok (exResultC7, "Folder uploaded successfully to sub")
      ∧ uploadFilesReplace FS.nil ["sub"] exSrcC7 false
        = Except.ok (exResultC7, "Folder uploaded successfully to sub") := by
  constructor <;> rfl

theorem C7_witness :
    (["sub"] ≠ ([] : Path))
      ∧ exRootC7.lookupPath ["sub"] = some (.dir ⟨0, 0⟩ (.file "old.txt" ⟨1, 1⟩ .nil))
      ∧ uploadFilesReplace exRootC7 ["sub"] exSrcC7 true = Except.error () :=
  ⟨by decide, by decide,
    C7_replace_all_wipe_then_copy.2 exRootC7 exSrcC7 ["sub"] ⟨0, 0⟩
      (.file "old.txt" ⟨1, 1⟩ .nil) (by decide) (by decide)⟩


/-! ## Claim C9 — subfolder listing and folder emptiness -/

theorem mem_insertName {s t : String} {l : List String} :
    t ∈ insertName s l ↔ t = s ∨ t ∈ l := by
  induction l with
  | nil => simp [insertName]
  | cons a rest ih =>
    by_cases h : compare s a = Ordering.gt <;> simp [insertName, h, ih] <;> tauto

theorem mem_sortNames {t : String} {l : List String} : t ∈ sortNames l ↔ t ∈ l := by
  induction l with
  | nil => simp [sortNames]
  | cons a rest ih => simp [sortNames, mem_insertName, ih]

theorem mem_names_of_mem_foldersOf {u : Path → Bool} {base : Path} {c : FS} {n : String}
    (h : n ∈ foldersOf u base c) : n ∈ c.names := by
  induction c with
  | nil => simpa [foldersOf] using h
  | file a i rest ih =>
    simp only [foldersOf] at h
    simp [FS.names, ih h]
  | dir a me sub rest ihc ihr =>
    simp only [foldersOf, List.mem_append] at h
    rcases h with h | h
    · split at h
      · simp at h
        simp [FS.names, h]
      · simp at h
    · simp [FS.names, ihr h]

theorem mem_foldersOf {u : Path → Bool} {base : Path} {c : FS} {n : String}
    (hwf : c.wf = true) :
    n ∈ foldersOf u base c ↔
      ∃ me sub, c.find n = some (.dir me sub) ∧ excludedFolder n = false ∧
        isFolderEmptyAt u (base ++ [n]) sub = false := by
  induction c with
  | nil => simp [foldersOf, FS.find]
  | file a i rest ih =>
    rw [wf_file_iff] at hwf
    obtain ⟨ha, hrest⟩ := hwf
    by_cases hq : a = n
    · subst hq
      constructor
      · intro h
        simp only [foldersOf] at h
        exact absurd (mem_names_of_mem_foldersOf h) ha
      · rintro ⟨me, sub, hfind, -, -⟩
        simp [FS.find] at hfind
    · simp only [foldersOf]
      rw [ih hrest]
      constructor <;> rintro ⟨me, sub, hfind, h1, h2⟩ <;>
        exact ⟨me, sub, by simpa [FS.find, hq] using hfind, h1, h2⟩
  | dir a me sub rest ihc ihr =>
    rw [wf_dir_iff] at hwf
    obtain ⟨ha, hsub, hrest⟩ := hwf
    by_cases hq : a = n
    · subst hq
      simp only [foldersOf, List.mem_append]
      constructor
      · intro h
        rcases h with h | h
        · split at h
          · rename_i hcond
            simp only [Bool.and_eq_true, Bool.not_eq_true'] at hcond
            exact ⟨me, sub, by simp [FS.find], hcond.1, hcond.2⟩
          · simp at h
        · exact absurd (mem_names_of_mem_foldersOf h) ha
      · rintro ⟨me', sub', hfind, h1, h2⟩
        rw [show (FS.dir a me sub rest).find a = some (Ent.dir me sub) from by
          simp [FS.find]] at hfind
        injection hfind with hfind
        injection hfind with h3 h4
        subst h4
        left
        simp [h1, h2]
    · simp only [foldersOf, List.mem_append]
      constructor
      · intro h
        rcases h with h | h
        · split at h
          · simp at h
            exact absurd h.symm hq
          · simp at h
        · obtain ⟨me', sub', hfind, h1, h2⟩ := (ihr hrest).mp h
          exact ⟨me', sub', by simpa [FS.find, hq] using hfind, h1, h2⟩
      · rintro ⟨me', sub', hfind, h1, h2⟩
        right
        rw [ihr hrest]
        exact ⟨me', sub', by simpa [FS.find, hq] using hfind, h1, h2⟩

/-- **C9 (amended).** A subfolder is listed by `get_folder` iff it is a
directory entry that is not excluded and not empty per `is_folder_empty` —
and that emptiness check is **one level deep**, not recursive: the answer
for a folder whose first entry is a subdirectory does not depend on that
subdirectory's contents at all (the right-hand side below never mentions
`sub`), so a folder containing only an empty subdirectory counts as
non-empty and is listed. -/
theorem C9_listing_one_level_emptiness :
    (∀ (u : Path → Bool) (base : Path) (c : FS), c.wf = true → ∀ n : String,
        n ∈ (getFolderModel u base c).folders ↔
          ∃ me sub, c.find n = some (.dir me sub) ∧ excludedFolder n = false ∧
            isFolderEmptyAt u (base ++ [n]) sub = false)
    ∧ (∀ (u : Path → Bool) (p : Path) (n : String) (me : FileInfo) (sub rest : FS),
        isFolderEmptyAt u p (.dir n me sub rest)
          = (u p || (excludedFolder n && allEntriesExcluded rest))) := by
  constructor
  · intro u base c hwf n
    rw [getFolderModel]
    simp only [mem_sortNames]
    exact mem_foldersOf hwf
  · intro u p n me sub rest
    rfl

/-- **C9, counterexample.** The folder `b` contains nothing but one
completely empty, non-excluded subdirectory `sub`; under the claim's
recursive emptiness (`folderEmptyRecClaim`) it is empty and should be
hidden, yet `get_folder` lists it. -/
theorem C9_counterexample :
    "b" ∈ (getFolderModel noFail [] exParentC9).folders
      ∧ folderEmptyRecClaim (FS.dir "sub" ⟨0, 0⟩ FS.nil FS.nil) = true := by
  constructor <;> decide

theorem C9_witness :
    exParentC9.wf = true ∧ "b" ∈ (getFolderModel noFail [] exParentC9).folders :=
  ⟨by decide,
    (C9_listing_one_level_emptiness.1 noFail [] exParentC9 (by decide) "b").mpr
      ⟨⟨0, 0⟩, FS.dir "sub" ⟨0, 0⟩ FS.nil FS.nil, by decide, by decide, by decide⟩⟩


/-! ## Fold invariants of the copy and delete passes -/

theorem foldlInv {α σ : Type _} (f : σ → α → σ) (P : σ → Prop) :
    ∀ (l : List α) (s : σ), P s → (∀ s' a, a ∈ l → P s' → P (f s' a)) →
      P (l.foldl f s) := by
  intro l
  induction l with
  | nil => intro s h _; exact h
  | cons a rest ih =>
    intro s h step
    exact ih (f s a) (step s a (by simp) h) fun s' b hb => step s' b (by simp [hb])

/-- A copy step keeps `copied ⊆ source_files`: the relative path is added to
`source_files` before the copy is even attempted. -/
theorem copyStep_copied_sub (cf : Path → Bool) (st : CopyState) (pi : Path × FileInfo)
    (h : ∀ p ∈ st.copied, p ∈ st.srcPaths) :
    ∀ p ∈ (copyStep cf st pi).copied, p ∈ (copyStep cf st pi).srcPaths := by
  by_cases hab : st.aborted = true
  · simpa [copyStep, hab] using h
  · cases hmk : FS.mkdirs st.target pi.1.dropLast with
    | none =>
      simp only [copyStep, hab, Bool.false_eq_true, if_false, hmk]
      intro p hp
      exact List.mem_append.mpr (Or.inl (h p hp))
    | some t1 =>
      by_cases hsc : shouldCopy t1 pi.1 pi.2 = true
      · by_cases hfl : (cf pi.1 || t1.isDirAt pi.1) = true
        · simp only [copyStep, hab, Bool.false_eq_true, if_false, hmk, hsc, if_true, hfl]
          intro p hp
          exact List.mem_append.mpr (Or.inl (h p hp))
        · simp only [copyStep, hab, Bool.false_eq_true, if_false, hmk, hsc, if_true,
            hfl, Bool.not_eq_true]
          intro p hp
          rcases List.mem_append.mp hp with h1 | h1
          · exact List.mem_append.mpr (Or.inl (h p h1))
          · exact List.mem_append.mpr (Or.inr h1)
      · simp only [copyStep, hab, Bool.false_eq_true, if_false, hmk, hsc]
        intro p hp
        exact List.mem_append.mpr (Or.inl (h p hp))

/-- A copy step only records paths of walked source entries in `copied`. -/
theorem copyStep_copied_from (cf : Path → Bool) (st : CopyState) (pi : Path × FileInfo)
    (L : List (Path × FileInfo)) (hpi : pi ∈ L)
    (h : ∀ p ∈ st.copied, ∃ i, (p, i) ∈ L) :
    ∀ p ∈ (copyStep cf st pi).copied, ∃ i, (p, i) ∈ L := by
  by_cases hab : st.aborted = true
  · simpa [copyStep, hab] using h
  · cases hmk : FS.mkdirs st.target pi.1.dropLast with
    | none =>
      simp only [copyStep, hab, Bool.false_eq_true, if_false, hmk]
      exact h
    | some t1 =>
      by_cases hsc : shouldCopy t1 pi.1 pi.2 = true
      · by_cases hfl : (cf pi.1 || t1.isDirAt pi.1) = true
        · simp only [copyStep, hab, Bool.false_eq_true, if_false, hmk, hsc, if_true, hfl]
          exact h
        · simp only [copyStep, hab, Bool.false_eq_true, if_false, hmk, hsc, if_true,
            hfl, Bool.not_eq_true]
          intro p hp
          rcases List.mem_append.mp hp with h1 | h1
          · exact h p h1
          · simp at h1
            exact ⟨pi.2, h1 ▸ hpi⟩
      · simp only [copyStep, hab, Bool.false_eq_true, if_false, hmk, hsc]
        exact h

/-- A delete step never deletes a member of `source_files`. -/
theorem deleteStep_not_src (rf : Path → Bool) (srcPaths : List Path) (st : DelState)
    (pi : Path × FileInfo) (h : ∀ p ∈ st.deleted, p ∉ srcPaths) :
    ∀ p ∈ (deleteStep rf srcPaths st pi).deleted, p ∉ srcPaths := by
  by_cases hm : pi.1 ∈ srcPaths
  · simpa [deleteStep, hm] using h
  · by_cases hrf : rf pi.1 = true
    · simpa [deleteStep, hm, hrf] using h
    · simp only [deleteStep, hm, if_false, hrf, Bool.false_eq_true]
      intro p hp
      rcases List.mem_append.mp hp with h1 | h1
      · exact h p h1
      · simp at h1
        exact h1 ▸ hm

/-- A delete step only records paths of walked target entries. -/
theorem deleteStep_deleted_from (rf : Path → Bool) (srcPaths : List Path) (st : DelState)
    (pi : Path × FileInfo) (L : List (Path × FileInfo)) (hpi : pi ∈ L)
    (h : ∀ p ∈ st.deleted, ∃ i, (p, i) ∈ L) :
    ∀ p ∈ (deleteStep rf srcPaths st pi).deleted, ∃ i, (p, i) ∈ L := by
  by_cases hm : pi.1 ∈ srcPaths
  · simpa [deleteStep, hm] using h
  · by_cases hrf : rf pi.1 = true
    · simpa [deleteStep, hm, hrf] using h
    · simp only [deleteStep, hm, if_false, hrf, Bool.false_eq_true]
      intro p hp
      rcases List.mem_append.mp hp with h1 | h1
      · exact h p h1
      · simp at h1
        exact ⟨pi.2, h1 ▸ hpi⟩

theorem copyPass_copied_sub (inp : SyncInput) (t0 : FS) :
    ∀ p ∈ (copyPass inp t0).copied, p ∈ (copyPass inp t0).srcPaths := by
  refine foldlInv (copyStep inp.copyFail)
    (fun st => ∀ p ∈ st.copied, p ∈ st.srcPaths) _ _ (by simp) ?_
  intro st a _ h
  exact copyStep_copied_sub inp.copyFail st a h

theorem copyPass_copied_from (inp : SyncInput) (t0 : FS) :
    ∀ p ∈ (copyPass inp t0).copied, ∃ i, (p, i) ∈ walkRoot inp.srcUnread inp.source := by
  refine foldlInv (copyStep inp.copyFail)
    (fun st => ∀ p ∈ st.copied, ∃ i, (p, i) ∈ walkRoot inp.srcUnread inp.source)
    _ _ (by simp) ?_
  intro st a ha h
  exact copyStep_copied_from inp.copyFail st a _ ha h

theorem deletePass_not_src (inp : SyncInput) (cs : CopyState) :
    ∀ p ∈ (deletePass inp cs).deleted, p ∉ cs.srcPaths := by
  refine foldlInv (deleteStep inp.removeFail cs.srcPaths)
    (fun st => ∀ p ∈ st.deleted, p ∉ cs.srcPaths) _ _ (by simp) ?_
  intro st a _ h
  exact deleteStep_not_src inp.removeFail cs.srcPaths st a h

theorem deletePass_deleted_from (inp : SyncInput) (cs : CopyState) :
    ∀ p ∈ (deletePass inp cs).deleted, ∃ i, (p, i) ∈ walkRoot inp.tgtUnread cs.target := by
  refine foldlInv (deleteStep inp.removeFail cs.srcPaths)
    (fun st => ∀ p ∈ st.deleted, ∃ i, (p, i) ∈ walkRoot inp.tgtUnread cs.target)
    _ _ (by simp) ?_
  intro st a ha h
  exact deleteStep_deleted_from inp.removeFail cs.srcPaths st a _ ha h

/-! ## Claim C10 — `copied` and `deleted` are disjoint -/

/-- **C10.** In every report returned by the incremental sync — any target,
any failure pattern — no relative path is both copied and deleted: a path is
recorded in `source_files` before any copy attempt, and the delete pass only
ever deletes paths that are not in `source_files`. -/
theorem C10_copied_deleted_disjoint :
    ∀ (inp : SyncInput) (p : Path),
      p ∈ (rsyncRun inp).2.copied → p ∉ (rsyncRun inp).2.deleted := by
  intro inp p hp
  rw [rsyncRun_eq] at hp ⊢
  by_cases hab : (copyPass inp (inp.target.getD .nil)).aborted = true
  · simp [hab]
  · simp only [hab, Bool.false_eq_true, if_false] at hp ⊢
    intro hdel
    exact deletePass_not_src inp _ p hdel
      (copyPass_copied_sub inp (inp.target.getD .nil) p hp)

theorem C10_witness :
    (["sub", "b.txt"] : Path) ∈ (rsyncRun exInputC10).2.copied
      ∧ (["sub", "b.txt"] : Path) ∉ (rsyncRun exInputC10).2.deleted :=
  ⟨by decide, C10_copied_deleted_disjoint exInputC10 ["sub", "b.txt"] (by decide)⟩


/-! ## Claim C2 — exclusion hygiene -/

theorem cleanPath_cons {n : String} {s : Path} (hn : excludedFolder n = false)
    (hs : cleanPath s = true) : cleanPath (n :: s) = true := by
  cases s with
  | nil => simp [cleanPath] at hs
  | cons m s' => simp [cleanPath, hn, hs]

/-- Every file yielded by the walk lies strictly below the walk prefix at a
path whose directory components are all non-excluded and whose file name is
non-excluded: the walk prunes excluded directories before descending and
skips excluded files. -/
theorem walkFS_clean {u : Path → Bool} :
    ∀ (fs : FS) (pre : Path) {p : Path} {i : FileInfo},
      (p, i) ∈ walkFS u pre fs → ∃ s, p = pre ++ s ∧ cleanPath s = true := by
  intro fs
  induction fs with
  | nil => intro pre p i h; simp [walkFS] at h
  | file n j rest ih =>
    intro pre p i h
    simp only [walkFS, List.mem_append] at h
    rcases h with h | h
    · split at h
      · simp at h
      · rename_i hexcl
        simp only [List.mem_singleton, Prod.mk.injEq] at h
        refine ⟨[n], h.1, ?_⟩
        simp [cleanPath, show excludedFile n = false from by simpa using hexcl]
    · exact ih pre h
  | dir n me c rest ihc ihr =>
    intro pre p i h
    simp only [walkFS, List.mem_append] at h
    rcases h with h | h
    · split at h
      · simp at h
      · rename_i hcond
        simp only [Bool.or_eq_true, not_or, Bool.not_eq_true] at hcond
        obtain ⟨s', hp, hc⟩ := ihc (pre ++ [n]) h
        refine ⟨n :: s', by simpa using hp, cleanPath_cons hcond.1 hc⟩
    · exact ihr pre h

theorem walkRoot_clean {u : Path → Bool} {fs : FS} {p : Path} {i : FileInfo}
    (h : (p, i) ∈ walkRoot u fs) : cleanPath p = true := by
  unfold walkRoot at h
  split at h
  · simp at h
  · obtain ⟨s, hp, hc⟩ := walkFS_clean fs [] h
    simpa [hp] using hc

theorem foldersOf_not_excluded {u : Path → Bool} {base : Path} :
    ∀ {c : FS} {n : String}, n ∈ foldersOf u base c → excludedFolder n = false := by
  intro c
  induction c with
  | nil => intro n h; simp [foldersOf] at h
  | file a i rest ih => intro n h; exact ih h
  | dir a me sub rest ihc ihr =>
    intro n h
    simp only [foldersOf, List.mem_append] at h
    rcases h with h | h
    · split at h
      · rename_i hcond
        simp only [Bool.and_eq_true, Bool.not_eq_true'] at hcond
        simp only [List.mem_singleton] at h
        exact h ▸ hcond.1
      · simp at h
    · exact ihr h

theorem filesOf_not_excluded :
    ∀ {c : FS} {n : String}, n ∈ filesOf c → excludedFile n = false := by
  intro c
  induction c with
  | nil => intro n h; simp [filesOf] at h
  | file a i rest ih =>
    intro n h
    simp only [filesOf, List.mem_append] at h
    rcases h with h | h
    · split at h
      · rename_i hcond
        simp only [List.mem_singleton] at h
        exact h ▸ (by simpa using hcond)
      · simp at h
    · exact ih h
  | dir a me sub rest ihc ihr => intro n h; exact ihr h

/-- **C2 (amended).** Exclusion hygiene of the engine's observable output:
every path in `copied` or `deleted` has only non-excluded directory
components and a non-excluded file name (the copy-pass and delete-pass
walks prune excluded directories and skip excluded files), and the folder
and file listings never show an excluded name.  The original claim's
further assertion — that *no* walk of the sync engine ever descends into an
excluded directory — is false: the empty-directory prune pass walks the
whole target without the exclusion filter and removes even excluded
directories (`C2_counterexample`). -/
theorem C2_exclusion_hygiene :
    (∀ (inp : SyncInput) (p : Path),
        p ∈ (rsyncRun inp).2.copied → cleanPath p = true)
    ∧ (∀ (inp : SyncInput) (p : Path),
        p ∈ (rsyncRun inp).2.deleted → cleanPath p = true)
    ∧ (∀ (u : Path → Bool) (base : Path) (c : FS) (n : String),
        n ∈ (getFolderModel u base c).folders → excludedFolder n = false)
    ∧ (∀ (u : Path → Bool) (base : Path) (c : FS) (n : String),
        n ∈ (getFolderModel u base c).files → excludedFile n = false) := by
  refine ⟨?_, ?_, ?_, ?_⟩
  · intro inp p hp
    rw [rsyncRun_eq] at hp
    by_cases hab : (copyPass inp (inp.target.getD .nil)).aborted = true
    · simp only [hab, if_true] at hp
      obtain ⟨i, hi⟩ := copyPass_copied_from inp (inp.target.getD .nil) p hp
      exact walkRoot_clean hi
    · simp only [hab, Bool.false_eq_true, if_false] at hp
      obtain ⟨i, hi⟩ := copyPass_copied_from inp (inp.target.getD .nil) p hp
      exact walkRoot_clean hi
  · intro inp p hp
    rw [rsyncRun_eq] at hp
    by_cases hab : (copyPass inp (inp.target.getD .nil)).aborted = true
    · simp only [hab, if_true] at hp
      simp at hp
    · simp only [hab, Bool.false_eq_true, if_false] at hp
      obtain ⟨i, hi⟩ := deletePass_deleted_from inp _ p hp
      exact walkRoot_clean hi
  · intro u base c n hn
    rw [getFolderModel] at hn
    simp only [mem_sortNames] at hn
    exact foldersOf_not_excluded hn
  · intro u base c n hn
    rw [getFolderModel] at hn
    simp only [mem_sortNames] at hn
    exact filesOf_not_excluded hn

/-- **C2, counterexample to the "never descended into" part.**  The target
contains the excluded directory `.git`, which itself contains the empty
directory `sub`.  Respecting the claim, no walk may enter `.git`, so
`.git/sub` — and with it the non-empty `.git` — could never be removed.
The sync nevertheless ends with `.git` gone (no `deleted` entry records
it): the prune pass of lines 359–367 walks the target *without* the
exclusion filter, enters `.git`, removes the empty `sub` and then the now
empty `.git`. -/
theorem C2_counterexample :
    excludedFolder ".git" = true
      ∧ exTargetC2.lookupPath [".git", "sub"] = some (.dir ⟨0, 0⟩ FS.nil)
      ∧ (rsyncRun exInputC2).1.lookupPath [".git"] = none
      ∧ (rsyncRun exInputC2).2.deleted = [] := by
  exact ⟨by decide, by decide, by rfl, by rfl⟩

theorem C2_witness :
    (["sub", "b.txt"] : Path) ∈ (rsyncRun exInputC10).2.copied
      ∧ cleanPath ["sub", "b.txt"] = true
      ∧ "b" ∈ (getFolderModel noFail [] exParentC9).folders
      ∧ excludedFolder "b" = false :=
  ⟨by decide, C2_exclusion_hygiene.1 exInputC10 ["sub", "b.txt"] (by decide),
    by decide, C2_exclusion_hygiene.2.2.1 noFail [] exParentC9 "b" (by decide)⟩


/-! ## Preservation lemmas for the path surgery operations -/

/-- Well-formedness requirement on an entry being written. -/
def entWf : Ent → Bool
  | .file _ => true
  | .dir _ c => c.wf

theorem mem_names_setEntry {n m : String} {e : Ent} :
    ∀ {fs : FS}, m ∈ (fs.setEntry n e).names → m ∈ fs.names ∨ m = n := by
  intro fs
  induction fs with
  | nil =>
    intro h
    cases e <;> simp [FS.setEntry, FS.names] at h <;> exact Or.inr h
  | file a i rest ih =>
    intro h
    by_cases han : a = n
    · subst han
      cases e <;> simp [FS.setEntry, FS.names] at h ⊢ <;> tauto
    · simp only [FS.setEntry, if_neg han, FS.names, List.mem_cons] at h
      rcases h with h | h
      · exact Or.inl (by simp [FS.names, h])
      · rcases ih h with h1 | h1
        · exact Or.inl (by simp [FS.names, h1])
        · exact Or.inr h1
  | dir a me c rest ihc ihr =>
    intro h
    by_cases han : a = n
    · subst han
      cases e <;> simp [FS.setEntry, FS.names] at h ⊢ <;> tauto
    · simp only [FS.setEntry, if_neg han, FS.names, List.mem_cons] at h
      rcases h with h | h
      · exact Or.inl (by simp [FS.names, h])
      · rcases ihr h with h1 | h1
        · exact Or.inl (by simp [FS.names, h1])
        · exact Or.inr h1

theorem wf_setEntry {n : String} {e : Ent} :
    ∀ {fs : FS}, fs.wf = true → entWf e = true → (fs.setEntry n e).wf = true := by
  intro fs
  induction fs with
  | nil =>
    intro _ he
    cases e with
    | file i => simp [FS.setEntry, FS.wf, FS.names]
    | dir me c =>
      simp [FS.setEntry, FS.wf, FS.names]
      simpa [entWf] using he
  | file a i rest ih =>
    intro hwf he
    rw [wf_file_iff] at hwf
    obtain ⟨ha, hrest⟩ := hwf
    by_cases han : a = n
    · subst han
      cases e with
      | file j =>
        have hset : (FS.file a i rest).setEntry a (.file j) = .file a j rest := by
          simp [FS.setEntry]
        rw [hset, wf_file_iff]
        exact ⟨ha, hrest⟩
      | dir me' c' =>
        have hset : (FS.file a i rest).setEntry a (.dir me' c') = .dir a me' c' rest := by
          simp [FS.setEntry]
        rw [hset, wf_dir_iff]
        exact ⟨ha, by simpa [entWf] using he, hrest⟩
    · have hset : (FS.file a i rest).setEntry n e = .file a i (rest.setEntry n e) := by
        simp [FS.setEntry, han]
      rw [hset, wf_file_iff]
      refine ⟨fun hmem => ?_, ih hrest he⟩
      rcases mem_names_setEntry hmem with h1 | h1
      · exact ha h1
      · exact han h1
  | dir a me c rest ihc ihr =>
    intro hwf he
    rw [wf_dir_iff] at hwf
    obtain ⟨ha, hc, hrest⟩ := hwf
    by_cases han : a = n
    · subst han
      cases e with
      | file j =>
        have hset : (FS.dir a me c rest).setEntry a (.file j) = .file a j rest := by
          simp [FS.setEntry]
        rw [hset, wf_file_iff]
        exact ⟨ha, hrest⟩
      | dir me' c' =>
        have hset : (FS.dir a me c rest).setEntry a (.dir me' c') = .dir a me' c' rest := by
          simp [FS.setEntry]
        rw [hset, wf_dir_iff]
        exact ⟨ha, by simpa [entWf] using he, hrest⟩
    · have hset : (FS.dir a me c rest).setEntry n e = .dir a me c (rest.setEntry n e) := by
        simp [FS.setEntry, han]
      rw [hset, wf_dir_iff]
      refine ⟨fun hmem => ?_, hc, ihr hrest he⟩
      rcases mem_names_setEntry hmem with h1 | h1
      · exact ha h1
      · exact han h1

theorem setEntry_self {n : String} {e : Ent} :
    ∀ {fs : FS}, fs.find n = some e → fs.setEntry n e = fs := by
  intro fs
  induction fs with
  | nil => intro h; simp [FS.find] at h
  | file a i rest ih =>
    intro h
    by_cases han : a = n
    · subst han
      have h2 : some (Ent.file i) = some e := by rw [← h]; simp [FS.find]
      injection h2 with h2
      subst h2
      simp [FS.setEntry]
    · simp only [FS.find, if_neg han] at h
      simp [FS.setEntry, han, ih h]
  | dir a me c rest ihc ihr =>
    intro h
    by_cases han : a = n
    · subst han
      have h2 : some (Ent.dir me c) = some e := by rw [← h]; simp [FS.find]
      injection h2 with h2
      subst h2
      simp [FS.setEntry]
    · simp only [FS.find, if_neg han] at h
      simp [FS.setEntry, han, ihr h]

theorem wf_find_dir {n : String} {me : FileInfo} {c : FS} :
    ∀ {fs : FS}, fs.wf = true → fs.find n = some (.dir me c) → c.wf = true := by
  intro fs
  induction fs with
  | nil => intro _ h; simp [FS.find] at h
  | file a i rest ih =>
    intro hwf h
    rw [wf_file_iff] at hwf
    by_cases han : a = n
    · subst han; simp [FS.find] at h
    · simp only [FS.find, if_neg han] at h
      exact ih hwf.2 h
  | dir a me' c' rest ihc ihr =>
    intro hwf h
    rw [wf_dir_iff] at hwf
    by_cases han : a = n
    · subst han
      have h2 : some (Ent.dir me' c') = some (Ent.dir me c) := by rw [← h]; simp [FS.find]
      injection h2 with h2
      injection h2 with h3 h4
      exact h4 ▸ hwf.2.1
    · simp only [FS.find, if_neg han] at h
      exact ihr hwf.2.2 h

theorem mkChain_wf : ∀ r : Path, (mkChain r).wf = true := by
  intro r
  induction r with
  | nil => rfl
  | cons n rest ih => simp [mkChain, FS.wf, FS.names, ih]

theorem mkChain_dirsPresent : ∀ r : Path, (mkChain r).dirsPresent r = true := by
  intro r
  induction r with
  | nil => rfl
  | cons n rest ih => simp [mkChain, FS.dirsPresent, FS.find, ih]

theorem mkChain_lookupFile : ∀ (r q : Path), (mkChain r).lookupFile q = none := by
  intro r
  induction r with
  | nil => intro q; exact lookupFile_nil_fs q
  | cons n rest ih =>
    intro q
    cases q with
    | nil => rfl
    | cons m tail =>
      cases tail with
      | nil =>
        rw [lookupFile_single]
        by_cases h : n = m <;> simp [mkChain, FS.find, h]
      | cons m2 t2 =>
        rw [lookupFile_cons2]
        by_cases h : n = m <;> simp [mkChain, FS.find, h, ih]

theorem mkChain_lookupPath_none :
    ∀ (r q : Path), ¬(q ≠ [] ∧ q <+: r) → (mkChain r).lookupPath q = none := by
  intro r
  induction r with
  | nil =>
    intro q hq
    cases q with
    | nil => rfl
    | cons m tail =>
      cases tail with
      | nil => rfl
      | cons m2 t2 => rfl
  | cons n rest ih =>
    intro q hq
    cases q with
    | nil => rfl
    | cons m tail =>
      by_cases hmn : n = m
      · subst hmn
        cases tail with
        | nil => exact absurd ⟨by simp, List.cons_prefix_cons.mpr ⟨rfl, List.nil_prefix⟩⟩ hq
        | cons m2 t2 =>
          rw [lookupPath_cons]
          simp only [mkChain, FS.find, if_pos rfl]
          simp only [List.cons_ne_nil, if_neg (by simp : ¬(m2 :: t2 = ([] : Path)))]
          exact ih (m2 :: t2) fun hc =>
            hq ⟨by simp, List.cons_prefix_cons.mpr ⟨rfl, hc.2⟩⟩
      · rw [lookupPath_cons]
        simp [mkChain, FS.find, hmn]


theorem lookupFile_eq_some_iff {fs : FS} {p : Path} {j : FileInfo} :
    fs.lookupFile p = some j ↔ fs.lookupPath p = some (.file j) := by
  unfold FS.lookupFile
  cases h : fs.lookupPath p with
  | none => simp
  | some e => cases e <;> simp

theorem mkdirs_dirsPresent :
    ∀ (r : Path) (t t' : FS), t.mkdirs r = some t' → t'.dirsPresent r = true := by
  intro r
  induction r with
  | nil => intro t t' h; simp [FS.mkdirs] at h; subst h; rfl
  | cons n rest ih =>
    intro t t' h
    cases hf : t.find n with
    | some e =>
      cases e with
      | file i => simp [FS.mkdirs, hf] at h
      | dir me c =>
        cases hmk : c.mkdirs rest with
        | none => simp [FS.mkdirs, hf, hmk] at h
        | some c' =>
          simp only [FS.mkdirs, hf, hmk, Option.map_some', Option.some.injEq] at h
          subst h
          simp [FS.dirsPresent, find_setEntry, ih c c' hmk]
    | none =>
      simp only [FS.mkdirs, hf, Option.some.injEq] at h
      subst h
      simp [FS.dirsPresent, find_setEntry, mkChain_dirsPresent rest]

theorem wf_mkdirs :
    ∀ (r : Path) (t t' : FS), t.wf = true → t.mkdirs r = some t' → t'.wf = true := by
  intro r
  induction r with
  | nil => intro t t' hw h; simp [FS.mkdirs] at h; subst h; exact hw
  | cons n rest ih =>
    intro t t' hw h
    cases hf : t.find n with
    | some e =>
      cases e with
      | file i => simp [FS.mkdirs, hf] at h
      | dir me c =>
        cases hmk : c.mkdirs rest with
        | none => simp [FS.mkdirs, hf, hmk] at h
        | some c' =>
          simp only [FS.mkdirs, hf, hmk, Option.map_some', Option.some.injEq] at h
          subst h
          exact wf_setEntry hw (by simpa [entWf] using ih c c' (wf_find_dir hw hf) hmk)
    | none =>
      simp only [FS.mkdirs, hf, Option.some.injEq] at h
      subst h
      exact wf_setEntry hw (by simpa [entWf] using mkChain_wf rest)

theorem mkdirs_of_dirsPresent :
    ∀ (r : Path) (t : FS), t.dirsPresent r = true → t.mkdirs r = some t := by
  intro r
  induction r with
  | nil => intro t _; rfl
  | cons n rest ih =>
    intro t h
    cases hf : t.find n with
    | some e =>
      cases e with
      | file i => simp [FS.dirsPresent, hf] at h
      | dir me c =>
        simp only [FS.dirsPresent, hf] at h
        simp [FS.mkdirs, hf, ih c h, setEntry_self hf]
    | none => simp [FS.dirsPresent, hf] at h

theorem dirsPresent_of_lookupFile :
    ∀ (p : Path) (t : FS) (j : FileInfo),
      t.lookupFile p = some j → t.dirsPresent p.dropLast = true := by
  intro p
  induction p with
  | nil => intro t j h; simp [FS.lookupFile, FS.lookupPath] at h
  | cons n tail ih =>
    intro t j h
    cases tail with
    | nil => rfl
    | cons m t2 =>
      rw [lookupFile_cons2] at h
      cases hf : t.find n with
      | none => rw [hf] at h; exact Option.noConfusion h
      | some e =>
        cases e with
        | file i => rw [hf] at h; exact Option.noConfusion h
        | dir me c =>
          rw [hf] at h
          have h' : c.lookupFile (m :: t2) = some j := h
          rw [show (n :: m :: t2).dropLast = n :: (m :: t2).dropLast from rfl]
          simp [FS.dirsPresent, hf, ih c j h']

/-- `os.makedirs` succeeds when no regular file occupies a non-empty prefix
of the path, and it changes resolution only at such prefixes (where it
creates fresh empty directories): every file lookup in the tree is
untouched. -/
theorem mkdirs_char :
    ∀ (r : Path) (t t' : FS), t.mkdirs r = some t' →
      (∀ q, ¬(q ≠ [] ∧ q <+: r) → t'.lookupPath q = t.lookupPath q)
      ∧ (∀ q, t'.lookupFile q = t.lookupFile q) := by
  intro r
  induction r with
  | nil =>
    intro t t' h
    simp [FS.mkdirs] at h
    subst h
    exact ⟨fun q _ => rfl, fun q => rfl⟩
  | cons n rest ih =>
    intro t t' h
    cases hf : t.find n with
    | some e =>
      cases e with
      | file i => simp [FS.mkdirs, hf] at h
      | dir me c =>
        cases hmk : c.mkdirs rest with
        | none => simp [FS.mkdirs, hf, hmk] at h
        | some c' =>
          simp only [FS.mkdirs, hf, hmk, Option.map_some', Option.some.injEq] at h
          subst h
          obtain ⟨ih1, ih2⟩ := ih c c' hmk
          constructor
          · intro q hq
            cases q with
            | nil => rfl
            | cons m tail =>
              by_cases hmn : m = n
              · subst hmn
                cases tail with
                | nil =>
                  exact absurd ⟨by simp,
                    List.cons_prefix_cons.mpr ⟨rfl, List.nil_prefix⟩⟩ hq
                | cons m2 t2 =>
                  rw [lookupPath_cons, lookupPath_cons, find_setEntry, if_pos rfl, hf]
                  simp only [List.cons_ne_nil, if_neg (by simp : ¬(m2 :: t2 = ([] : Path)))]
                  exact ih1 (m2 :: t2) fun hc =>
                    hq ⟨by simp, List.cons_prefix_cons.mpr ⟨rfl, hc.2⟩⟩
              · rw [lookupPath_cons, lookupPath_cons, find_setEntry,
                  if_neg hmn]
          · intro q
            cases q with
            | nil => rfl
            | cons m tail =>
              by_cases hmn : m = n
              · subst hmn
                cases tail with
                | nil =>
                  rw [lookupFile_single, lookupFile_single, find_setEntry, if_pos rfl, hf]
                | cons m2 t2 =>
                  rw [lookupFile_cons2, lookupFile_cons2, find_setEntry, if_pos rfl, hf]
                  exact ih2 (m2 :: t2)
              · exact lookupFile_cons_eq_of_find_eq
                  (by rw [find_setEntry, if_neg hmn]) tail
    | none =>
      simp only [FS.mkdirs, hf, Option.some.injEq] at h
      subst h
      constructor
      · intro q hq
        cases q with
        | nil => rfl
        | cons m tail =>
          by_cases hmn : m = n
          · subst hmn
            cases tail with
            | nil =>
              exact absurd ⟨by simp,
                List.cons_prefix_cons.mpr ⟨rfl, List.nil_prefix⟩⟩ hq
            | cons m2 t2 =>
              rw [lookupPath_cons, lookupPath_cons, find_setEntry, if_pos rfl, hf]
              simp only [List.cons_ne_nil, if_neg (by simp : ¬(m2 :: t2 = ([] : Path)))]
              exact mkChain_lookupPath_none rest (m2 :: t2) fun hc =>
                hq ⟨by simp, List.cons_prefix_cons.mpr ⟨rfl, hc.2⟩⟩
          · rw [lookupPath_cons, lookupPath_cons, find_setEntry, if_neg hmn]
      · intro q
        cases q with
        | nil => rfl
        | cons m tail =>
          by_cases hmn : m = n
          · subst hmn
            cases tail with
            | nil =>
              rw [lookupFile_single, lookupFile_single, find_setEntry, if_pos rfl, hf]
            | cons m2 t2 =>
              rw [lookupFile_cons2, lookupFile_cons2, find_setEntry, if_pos rfl, hf]
              exact mkChain_lookupFile rest (m2 :: t2)
          · exact lookupFile_cons_eq_of_find_eq
              (by rw [find_setEntry, if_neg hmn]) tail

/-- `os.makedirs` succeeds when no regular file sits at a non-empty prefix
of the requested path. -/
theorem mkdirs_success :
    ∀ (r : Path) (t : FS),
      (∀ q, q ≠ [] → q <+: r → t.lookupFile q = none) →
      ∃ t', t.mkdirs r = some t' := by
  intro r
  induction r with
  | nil => intro t _; exact ⟨t, rfl⟩
  | cons n rest ih =>
    intro t hblk
    cases hf : t.find n with
    | some e =>
      cases e with
      | file i =>
        exfalso
        have := hblk [n] (by simp) (List.cons_prefix_cons.mpr ⟨rfl, List.nil_prefix⟩)
        rw [lookupFile_single, hf] at this
        exact Option.noConfusion this
      | dir me c =>
        obtain ⟨c', hc'⟩ := ih c fun q hq hpre => by
          cases q with
          | nil => exact absurd rfl hq
          | cons m t2 =>
            have := hblk (n :: m :: t2) (by simp)
              (List.cons_prefix_cons.mpr ⟨rfl, hpre⟩)
            rw [lookupFile_cons2, hf] at this
            exact this
        exact ⟨t.setEntry n (.dir me c'), by simp [FS.mkdirs, hf, hc']⟩
    | none => exact ⟨t.setEntry n (.dir ⟨0, 0⟩ (mkChain rest)), by simp [FS.mkdirs, hf]⟩

/-- `shutil.copy2` after a successful `os.makedirs(dirname)` and the
directory guard: the file appears at its path, resolution elsewhere changes
only at the non-empty prefixes of the path, and no other file lookup
changes. -/
theorem setFile_char :
    ∀ (p : Path) (t : FS) (i : FileInfo), t.dirsPresent p.dropLast = true →
      t.isDirAt p = false → p ≠ [] →
      ((t.setFile p i).lookupPath p = some (.file i))
      ∧ (∀ q, ¬(q ≠ [] ∧ q <+: p) → (t.setFile p i).lookupPath q = t.lookupPath q)
      ∧ (∀ q, q ≠ p → (t.setFile p i).lookupFile q = t.lookupFile q) := by
  intro p
  induction p with
  | nil => intro t i _ _ hne; exact absurd rfl hne
  | cons n tail ih =>
    intro t i hdp hdir _
    cases tail with
    | nil =>
      have hset : t.setFile [n] i = t.setEntry n (.file i) := rfl
      have hnotdir : ∀ me c, t.find n ≠ some (Ent.dir me c) := by
        intro me c hc
        rw [FS.isDirAt, show t.lookupPath [n] = t.find n from rfl, hc] at hdir
        exact Bool.noConfusion hdir
      refine ⟨?_, ?_, ?_⟩
      · rw [hset, show ∀ fs : FS, fs.lookupPath [n] = fs.find n from fun _ => rfl,
          find_setEntry, if_pos rfl]
      · intro q hq
        cases q with
        | nil => rfl
        | cons m t2 =>
          by_cases hmn : m = n
          · subst hmn
            cases t2 with
            | nil =>
              exact absurd ⟨by simp,
                List.cons_prefix_cons.mpr ⟨rfl, List.nil_prefix⟩⟩ hq
            | cons m2 t3 =>
              rw [hset, lookupPath_cons, lookupPath_cons, find_setEntry, if_pos rfl]
              cases hf : t.find m with
              | none => simp
              | some e =>
                cases e with
                | file j => simp
                | dir me c => exact absurd hf (hnotdir me c)
          · rw [hset, lookupPath_cons, lookupPath_cons, find_setEntry, if_neg hmn]
      · intro q hqp
        cases q with
        | nil => rfl
        | cons m t2 =>
          by_cases hmn : m = n
          · subst hmn
            cases t2 with
            | nil => exact absurd rfl hqp
            | cons m2 t3 =>
              rw [hset, lookupFile_cons2, lookupFile_cons2, find_setEntry, if_pos rfl]
              cases hf : t.find m with
              | none => simp
              | some e =>
                cases e with
                | file j => simp
                | dir me c => exact absurd hf (hnotdir me c)
          · exact lookupFile_cons_eq_of_find_eq
              (by rw [hset, find_setEntry, if_neg hmn]) t2
    | cons m' rest' =>
      have hfd : ∃ me c, t.find n = some (Ent.dir me c) := by
        rw [show (n :: m' :: rest').dropLast = n :: (m' :: rest').dropLast from rfl] at hdp
        cases hf : t.find n with
        | none => rw [FS.dirsPresent, hf] at hdp; exact Bool.noConfusion hdp
        | some e =>
          cases e with
          | file j => rw [FS.dirsPresent, hf] at hdp; exact Bool.noConfusion hdp
          | dir me c => exact ⟨me, c, rfl⟩
      obtain ⟨me, c, hf⟩ := hfd
      have hdpc : c.dirsPresent (m' :: rest').dropLast = true := by
        rw [show (n :: m' :: rest').dropLast = n :: (m' :: rest').dropLast from rfl,
          FS.dirsPresent, hf] at hdp
        exact hdp
      have hdirc : c.isDirAt (m' :: rest') = false := by
        rw [FS.isDirAt] at hdir ⊢
        rw [lookupPath_cons, hf] at hdir
        simpa using hdir
      obtain ⟨ih1, ih2, ih3⟩ := ih c i hdpc hdirc (by simp)
      have hset : t.setFile (n :: m' :: rest') i
          = t.setEntry n (.dir me (c.setFile (m' :: rest') i)) := by
        rw [FS.setFile, hf]
      refine ⟨?_, ?_, ?_⟩
      · rw [hset, lookupPath_cons, find_setEntry, if_pos rfl]
        simpa using ih1
      · intro q hq
        cases q with
        | nil => rfl
        | cons m t2 =>
          by_cases hmn : m = n
          · subst hmn
            cases t2 with
            | nil =>
              exact absurd ⟨by simp,
                List.cons_prefix_cons.mpr ⟨rfl, List.nil_prefix⟩⟩ hq
            | cons m2 t3 =>
              rw [hset, lookupPath_cons, lookupPath_cons, find_setEntry, if_pos rfl, hf]
              simp only [List.cons_ne_nil, if_neg (by simp : ¬(m2 :: t3 = ([] : Path)))]
              exact ih2 (m2 :: t3) fun hc =>
                hq ⟨by simp, List.cons_prefix_cons.mpr ⟨rfl, hc.2⟩⟩
          · rw [hset, lookupPath_cons, lookupPath_cons, find_setEntry, if_neg hmn]
      · intro q hqp
        cases q with
        | nil => rfl
        | cons m t2 =>
          by_cases hmn : m = n
          · subst hmn
            cases t2 with
            | nil =>
              rw [hset, lookupFile_single, lookupFile_single, find_setEntry,
                if_pos rfl, hf]
            | cons m2 t3 =>
              rw [hset, lookupFile_cons2, lookupFile_cons2, find_setEntry,
                if_pos rfl, hf]
              exact ih3 (m2 :: t3) fun hc => hqp (by rw [hc])
          · exact lookupFile_cons_eq_of_find_eq
              (by rw [hset, find_setEntry, if_neg hmn]) t2


/-! ## removeFile characterization -/

theorem names_removeFileEntry_subset {n m : String} :
    ∀ {fs : FS}, m ∈ (fs.removeFileEntry n).names → m ∈ fs.names := by
  intro fs
  induction fs with
  | nil => intro h; simpa [FS.removeFileEntry] using h
  | file a i rest ih =>
    intro h
    by_cases han : a = n
    · subst han
      have hr : (FS.file a i rest).removeFileEntry a = rest := by
        simp [FS.removeFileEntry]
      rw [hr] at h
      simp [FS.names, h]
    · have hr : (FS.file a i rest).removeFileEntry n
          = .file a i (rest.removeFileEntry n) := by
        simp [FS.removeFileEntry, han]
      rw [hr] at h
      simp only [FS.names, List.mem_cons] at h
      rcases h with h | h
      · simp [FS.names, h]
      · simp [FS.names, ih h]
  | dir a me c rest ihc ihr =>
    intro h
    simp only [FS.removeFileEntry, FS.names, List.mem_cons] at h
    rcases h with h | h
    · simp [FS.names, h]
    · simp [FS.names, ihr h]

theorem wf_removeFileEntry {n : String} :
    ∀ {fs : FS}, fs.wf = true → (fs.removeFileEntry n).wf = true := by
  intro fs
  induction fs with
  | nil => intro h; exact h
  | file a i rest ih =>
    intro hwf
    rw [wf_file_iff] at hwf
    by_cases han : a = n
    · subst han
      have hr : (FS.file a i rest).removeFileEntry a = rest := by
        simp [FS.removeFileEntry]
      rw [hr]
      exact hwf.2
    · have hr : (FS.file a i rest).removeFileEntry n
          = .file a i (rest.removeFileEntry n) := by
        simp [FS.removeFileEntry, han]
      rw [hr, wf_file_iff]
      exact ⟨fun hm => hwf.1 (names_removeFileEntry_subset hm), ih hwf.2⟩
  | dir a me c rest ihc ihr =>
    intro hwf
    rw [wf_dir_iff] at hwf
    simp only [FS.removeFileEntry]
    rw [wf_dir_iff]
    exact ⟨fun hm => hwf.1 (names_removeFileEntry_subset hm), hwf.2.1, ihr hwf.2.2⟩

theorem find_removeFileEntry {n m : String} :
    ∀ {fs : FS}, fs.wf = true →
      (fs.removeFileEntry n).find m =
        if m = n then
          match fs.find n with
          | some (.file _) => none
          | e => e
        else fs.find m := by
  intro fs
  induction fs with
  | nil =>
    intro _
    by_cases h : m = n <;> simp [FS.removeFileEntry, FS.find, h]
  | file a i rest ih =>
    intro hwf
    rw [wf_file_iff] at hwf
    by_cases han : a = n
    · subst han
      have hr : (FS.file a i rest).removeFileEntry a = rest := by
        simp [FS.removeFileEntry]
      have hfind : (FS.file a i rest).find a = some (Ent.file i) := by
        simp [FS.find]
      rw [hr, hfind]
      by_cases hm : m = a
      · subst hm
        rw [if_pos rfl]
        exact find_eq_none_of_not_mem_names rest m hwf.1
      · rw [if_neg hm]
        simp [FS.find, Ne.symm hm]
    · have hr : (FS.file a i rest).removeFileEntry n
          = .file a i (rest.removeFileEntry n) := by
        simp [FS.removeFileEntry, han]
      rw [hr]
      by_cases hm : a = m
      · subst hm
        rw [if_neg (fun hh : a = n => han hh)]
        simp [FS.find]
      · simp only [FS.find, if_neg hm]
        rw [ih hwf.2]
        simp [han]
  | dir a me c rest ihc ihr =>
    intro hwf
    rw [wf_dir_iff] at hwf
    have hr : (FS.dir a me c rest).removeFileEntry n
        = .dir a me c (rest.removeFileEntry n) := rfl
    rw [hr]
    by_cases hm : a = m
    · subst hm
      by_cases hmn : a = n
      · subst hmn
        simp [FS.find]
      · rw [if_neg (fun hh : a = n => hmn hh)]
        simp [FS.find]
    · simp only [FS.find, if_neg hm]
      rw [ihr hwf.2.2]
      by_cases hmn : m = n
      · subst hmn
        simp [hm]
      · rw [if_neg hmn, if_neg hmn]

/-- `os.remove` at a path: the file vanishes from exactly that path, every
other file lookup is untouched, and well-formedness is preserved. -/
theorem removeFile_char :
    ∀ (p : Path) (t : FS), t.wf = true →
      ((t.removeFile p).wf = true)
      ∧ (∀ q, (t.removeFile p).lookupFile q = if q = p then none else t.lookupFile q) := by
  intro p
  induction p with
  | nil =>
    intro t hwf
    refine ⟨hwf, fun q => ?_⟩
    by_cases hq : q = ([] : Path)
    · subst hq; simp [FS.removeFile, FS.lookupFile, FS.lookupPath]
    · simp [FS.removeFile, hq]
  | cons n tail ih =>
    intro t hwf
    cases tail with
    | nil =>
      have hrm : t.removeFile [n] = t.removeFileEntry n := rfl
      refine ⟨by rw [hrm]; exact wf_removeFileEntry hwf, fun q => ?_⟩
      cases q with
      | nil => simp [hrm, FS.lookupFile, FS.lookupPath]
      | cons m t2 =>
        cases t2 with
        | nil =>
          rw [hrm, lookupFile_single, lookupFile_single, find_removeFileEntry hwf]
          by_cases hmn : m = n
          · subst hmn
            rw [if_pos rfl, if_pos rfl]
            cases hf : t.find m with
            | none => simp
            | some e => cases e <;> simp
          · rw [if_neg hmn, if_neg (by simp [hmn] : ¬([m] : Path) = [n])]
        | cons m2 t3 =>
          rw [hrm, lookupFile_cons2, lookupFile_cons2, find_removeFileEntry hwf]
          rw [if_neg (by simp : ¬(m :: m2 :: t3 : Path) = [n])]
          by_cases hmn : m = n
          · subst hmn
            rw [if_pos rfl]
            cases hf : t.find m with
            | none => simp
            | some e => cases e <;> simp
          · rw [if_neg hmn]
    | cons m' rest' =>
      cases hf : t.find n with
      | some e =>
        cases e with
        | file j =>
          have hrm : t.removeFile (n :: m' :: rest') = t := by
            rw [FS.removeFile, hf]
          refine ⟨by rw [hrm]; exact hwf, fun q => ?_⟩
          rw [hrm]
          by_cases hq : q = (n :: m' :: rest' : Path)
          · subst hq
            rw [if_pos rfl, lookupFile_cons2, hf]
          · rw [if_neg hq]
        | dir me c =>
          have hcwf := wf_find_dir hwf hf
          obtain ⟨ih1, ih2⟩ := ih c hcwf
          have hrm : t.removeFile (n :: m' :: rest')
              = t.setEntry n (.dir me (c.removeFile (m' :: rest'))) := by
            rw [FS.removeFile, hf]
          refine ⟨by rw [hrm]; exact wf_setEntry hwf (by simpa [entWf] using ih1),
            fun q => ?_⟩
          rw [hrm]
          cases q with
          | nil =>
            rw [if_neg (by simp : ¬([] : Path) = n :: m' :: rest')]
            simp [FS.lookupFile, FS.lookupPath]
          | cons m t2 =>
            by_cases hmn : m = n
            · subst hmn
              cases t2 with
              | nil =>
                rw [if_neg (by simp : ¬([m] : Path) = m :: m' :: rest')]
                rw [lookupFile_single, lookupFile_single, find_setEntry, if_pos rfl, hf]
              | cons m2 t3 =>
                rw [lookupFile_cons2, lookupFile_cons2, find_setEntry, if_pos rfl, hf]
                show (c.removeFile (m' :: rest')).lookupFile (m2 :: t3)
                    = if (m :: m2 :: t3 : Path) = m :: m' :: rest' then none
                      else c.lookupFile (m2 :: t3)
                rw [ih2 (m2 :: t3)]
                by_cases hq : (m2 :: t3 : Path) = m' :: rest'
                · rw [if_pos hq, if_pos (by rw [hq])]
                · rw [if_neg hq, if_neg (by simp [hq])]
            · rw [if_neg (by simp [hmn])]
              exact lookupFile_cons_eq_of_find_eq
                (by rw [find_setEntry, if_neg hmn]) t2
      | none =>
        have hrm : t.removeFile (n :: m' :: rest') = t := by
          rw [FS.removeFile, hf]
        refine ⟨by rw [hrm]; exact hwf, fun q => ?_⟩
        rw [hrm]
        by_cases hq : q = (n :: m' :: rest' : Path)
        · subst hq
          rw [if_pos rfl, lookupFile_cons2, hf]
        · rw [if_neg hq]


/-! ## Prune characterization -/

theorem names_prune_subset {u : Path → Bool} {pre : Path} {m : String} :
    ∀ {fs : FS}, m ∈ (FS.prune u pre fs).names → m ∈ fs.names := by
  intro fs
  induction fs with
  | nil => intro h; simpa [FS.prune] using h
  | file a i rest ih =>
    intro h
    simp only [FS.prune, FS.names, List.mem_cons] at h
    rcases h with h | h
    · simp [FS.names, h]
    · simp [FS.names, ih h]
  | dir a me c rest ihc ihr =>
    intro h
    simp only [FS.prune] at h
    split at h
    · simp only [FS.names, List.mem_cons] at h
      rcases h with h | h
      · simp [FS.names, h]
      · simp [FS.names, ihr h]
    · split at h
      · simp [FS.names, ihr h]
      · simp only [FS.names, List.mem_cons] at h
        rcases h with h | h
        · simp [FS.names, h]
        · simp [FS.names, ihr h]

theorem wf_prune {u : Path → Bool} :
    ∀ {fs : FS} {pre : Path}, fs.wf = true → (FS.prune u pre fs).wf = true := by
  intro fs
  induction fs with
  | nil => intro pre h; exact h
  | file a i rest ih =>
    intro pre hwf
    rw [wf_file_iff] at hwf
    simp only [FS.prune]
    rw [wf_file_iff]
    exact ⟨fun hm => hwf.1 (names_prune_subset hm), ih hwf.2⟩
  | dir a me c rest ihc ihr =>
    intro pre hwf
    rw [wf_dir_iff] at hwf
    simp only [FS.prune]
    split
    · rw [wf_dir_iff]
      exact ⟨fun hm => hwf.1 (names_prune_subset hm), hwf.2.1, ihr hwf.2.2⟩
    · split
      · exact ihr hwf.2.2
      · rw [wf_dir_iff]
        exact ⟨fun hm => hwf.1 (names_prune_subset hm), ihc hwf.2.1, ihr hwf.2.2⟩

theorem find_prune {u : Path → Bool} {m : String} :
    ∀ {fs : FS} {pre : Path}, fs.wf = true →
      (FS.prune u pre fs).find m =
        match fs.find m with
        | some (.dir me c) =>
          if u (pre ++ [m]) then some (.dir me c)
          else if (FS.prune u (pre ++ [m]) c).isNil then none
          else some (.dir me (FS.prune u (pre ++ [m]) c))
        | e => e := by
  intro fs
  induction fs with
  | nil => intro pre _; simp [FS.prune, FS.find]
  | file a i rest ih =>
    intro pre hwf
    rw [wf_file_iff] at hwf
    by_cases ham : a = m
    · subst ham
      simp [FS.prune, FS.find]
    · simp only [FS.prune, FS.find, if_neg ham]
      exact ih hwf.2
  | dir a me c rest ihc ihr =>
    intro pre hwf
    rw [wf_dir_iff] at hwf
    by_cases ham : a = m
    · subst ham
      have hfind : (FS.dir a me c rest).find a = some (Ent.dir me c) := by
        simp [FS.find]
      rw [hfind]
      by_cases hu : u (pre ++ [a]) = true
      · have hpr : FS.prune u pre (FS.dir a me c rest)
            = .dir a me c (FS.prune u pre rest) := by
          simp [FS.prune, hu]
        rw [hpr]
        simp [FS.find, hu]
      · by_cases hnil : (FS.prune u (pre ++ [a]) c).isNil = true
        · have hpr : FS.prune u pre (FS.dir a me c rest) = FS.prune u pre rest := by
            simp [FS.prune, hu, hnil]
          rw [hpr]
          simp only [hu, Bool.false_eq_true, if_false, hnil, if_true]
          exact find_eq_none_of_not_mem_names _ _
            fun hm => hwf.1 (names_prune_subset hm)
        · have hpr : FS.prune u pre (FS.dir a me c rest)
              = .dir a me (FS.prune u (pre ++ [a]) c) (FS.prune u pre rest) := by
            simp [FS.prune, hu, hnil]
          rw [hpr]
          simp [FS.find, hu, hnil]
    · have hfind : (FS.dir a me c rest).find m = rest.find m := by
        simp [FS.find, ham]
      rw [hfind]
      by_cases hu : u (pre ++ [a]) = true
      · have hpr : FS.prune u pre (FS.dir a me c rest)
            = .dir a me c (FS.prune u pre rest) := by
          simp [FS.prune, hu]
        rw [hpr, show (FS.dir a me c (FS.prune u pre rest)).find m
            = (FS.prune u pre rest).find m from by simp [FS.find, ham]]
        exact ihr hwf.2.2
      · by_cases hnil : (FS.prune u (pre ++ [a]) c).isNil = true
        · have hpr : FS.prune u pre (FS.dir a me c rest) = FS.prune u pre rest := by
            simp [FS.prune, hu, hnil]
          rw [hpr]
          exact ihr hwf.2.2
        · have hpr : FS.prune u pre (FS.dir a me c rest)
              = .dir a me (FS.prune u (pre ++ [a]) c) (FS.prune u pre rest) := by
            simp [FS.prune, hu, hnil]
          rw [hpr, show (FS.dir a me (FS.prune u (pre ++ [a]) c)
              (FS.prune u pre rest)).find m
            = (FS.prune u pre rest).find m from by simp [FS.find, ham]]
          exact ihr hwf.2.2

/-- The prune pass never touches a file: every file lookup is unchanged.
(In particular a directory that still contains a file — directly or deeper —
is retained.) -/
theorem lookupFile_prune {u : Path → Bool} :
    ∀ (q : Path) (fs : FS) (pre : Path), fs.wf = true →
      (FS.prune u pre fs).lookupFile q = fs.lookupFile q := by
  intro q
  induction q with
  | nil => intro fs pre _; simp [FS.lookupFile, FS.lookupPath]
  | cons m tail ih =>
    intro fs pre hwf
    cases tail with
    | nil =>
      rw [lookupFile_single, lookupFile_single, find_prune hwf]
      cases hf : fs.find m with
      | none => simp
      | some e =>
        cases e with
        | file i => simp
        | dir me c =>
          by_cases hu : u (pre ++ [m]) = true
          · simp [hu]
          · by_cases hnil : (FS.prune u (pre ++ [m]) c).isNil = true <;>
              simp [hu, hnil]
    | cons m2 t2 =>
      rw [lookupFile_cons2, lookupFile_cons2, find_prune hwf]
      cases hf : fs.find m with
      | none => simp
      | some e =>
        cases e with
        | file i => simp
        | dir me c =>
          have hcwf := wf_find_dir hwf hf
          by_cases hu : u (pre ++ [m]) = true
          · simp [hu]
          · by_cases hnil : (FS.prune u (pre ++ [m]) c).isNil = true
            · have hpn : FS.prune u (pre ++ [m]) c = FS.nil := by
                cases hpc : FS.prune u (pre ++ [m]) c with
                | nil => rfl
                | file a b d => rw [hpc] at hnil; exact Bool.noConfusion hnil
                | dir a b d e => rw [hpc] at hnil; exact Bool.noConfusion hnil
              have hcl : c.lookupFile (m2 :: t2) = none := by
                have h3 := ih c (pre ++ [m]) hcwf
                rw [hpn, lookupFile_nil_fs] at h3
                exact h3.symm
              simp [hu, hnil, hcl]
            · simp only [hu, Bool.false_eq_true, if_false, hnil]
              show (FS.prune u (pre ++ [m]) c).lookupFile (m2 :: t2)
                  = c.lookupFile (m2 :: t2)
              exact ih c (pre ++ [m]) hcwf

/-! ## Walk characterization -/

/-- A relative path is visible to the exclusion-filtered walk below a given
prefix: no directory component is excluded or unreadable, and the file name
is not excluded. -/
def visible (u : Path → Bool) : Path → Path → Bool
  | _, [] => false
  | _, [n] => !excludedFile n
  | pre, n :: m :: rest =>
    !excludedFolder n && !u (pre ++ [n]) && visible u (pre ++ [n]) (m :: rest)

theorem walk_head {u : Path → Bool} :
    ∀ {fs : FS} {pre p : Path} {i : FileInfo},
      (p, i) ∈ walkFS u pre fs → ∃ n s, p = pre ++ n :: s ∧ n ∈ fs.names := by
  intro fs
  induction fs with
  | nil => intro pre p i h; simp [walkFS] at h
  | file a j rest ih =>
    intro pre p i h
    simp only [walkFS, List.mem_append] at h
    rcases h with h | h
    · split at h
      · simp at h
      · simp only [List.mem_singleton, Prod.mk.injEq] at h
        exact ⟨a, [], h.1, by simp [FS.names]⟩
    · obtain ⟨n, s, hp, hn⟩ := ih h
      exact ⟨n, s, hp, by simp [FS.names, hn]⟩
  | dir a me c rest ihc ihr =>
    intro pre p i h
    simp only [walkFS, List.mem_append] at h
    rcases h with h | h
    · split at h
      · simp at h
      · obtain ⟨n, s, hp, hn⟩ := ihc h
        refine ⟨a, n :: s, ?_, by simp [FS.names]⟩
        rw [hp, List.append_assoc]
        rfl
    · obtain ⟨n, s, hp, hn⟩ := ihr h
      exact ⟨n, s, hp, by simp [FS.names, hn]⟩

/-- Soundness of the walk: every yielded pair is a visible file of the
tree. -/
theorem walkFS_mem_lookupFile {u : Path → Bool} :
    ∀ {fs : FS} {pre p : Path} {i : FileInfo}, fs.wf = true →
      (p, i) ∈ walkFS u pre fs →
      ∃ s, p = pre ++ s ∧ visible u pre s = true ∧ fs.lookupFile s = some i := by
  intro fs
  induction fs with
  | nil => intro pre p i _ h; simp [walkFS] at h
  | file a j rest ih =>
    intro pre p i hwf h
    rw [wf_file_iff] at hwf
    simp only [walkFS, List.mem_append] at h
    rcases h with h | h
    · split at h
      · simp at h
      · rename_i hexcl
        simp only [List.mem_singleton, Prod.mk.injEq] at h
        refine ⟨[a], h.1, ?_, ?_⟩
        · simp [visible, show excludedFile a = false from by simpa using hexcl]
        · rw [lookupFile_single]
          simp [FS.find, h.2]
    · obtain ⟨s, hp, hv, hl⟩ := ih hwf.2 h
      obtain ⟨n, s2, hp2, hn⟩ := walk_head h
      have hsn : s = n :: s2 := by
        rw [hp] at hp2
        exact List.append_cancel_left hp2
      refine ⟨s, hp, hv, ?_⟩
      rw [hsn] at hl ⊢
      rw [← hl]
      exact lookupFile_cons_eq_of_find_eq
        (by simp [FS.find, show a ≠ n from fun hh => hwf.1 (hh ▸ hn)]) s2
  | dir a me c rest ihc ihr =>
    intro pre p i hwf h
    rw [wf_dir_iff] at hwf
    simp only [walkFS, List.mem_append] at h
    rcases h with h | h
    · split at h
      · simp at h
      · rename_i hcond
        simp only [Bool.or_eq_true, not_or, Bool.not_eq_true] at hcond
        obtain ⟨s, hp, hv, hl⟩ := ihc hwf.2.1 h
        cases s with
        | nil => simp [visible] at hv
        | cons m s2 =>
          refine ⟨a :: m :: s2, ?_, ?_, ?_⟩
          · rw [hp, List.append_assoc]; rfl
          · simp [visible, hcond.1, hcond.2, hv]
          · rw [lookupFile_cons2]
            simp only [FS.find, if_pos rfl]
            exact hl
    · obtain ⟨s, hp, hv, hl⟩ := ihr hwf.2.2 h
      obtain ⟨n, s2, hp2, hn⟩ := walk_head h
      have hsn : s = n :: s2 := by
        rw [hp] at hp2
        exact List.append_cancel_left hp2
      refine ⟨s, hp, hv, ?_⟩
      rw [hsn] at hl ⊢
      rw [← hl]
      exact lookupFile_cons_eq_of_find_eq
        (by simp [FS.find, show a ≠ n from fun hh => hwf.1 (hh ▸ hn)]) s2

/-- Completeness of the walk: every visible file of the tree is yielded. -/
theorem lookupFile_mem_walkFS {u : Path → Bool} :
    ∀ (s : Path) (fs : FS) (pre : Path) (i : FileInfo), visible u pre s = true →
      fs.lookupFile s = some i → (pre ++ s, i) ∈ walkFS u pre fs := by
  intro s
  induction s with
  | nil => intro fs pre i hv _; simp [visible] at hv
  | cons m tail ih =>
    intro fs pre i hv hl
    induction fs with
    | nil => rw [lookupFile_nil_fs] at hl; exact Option.noConfusion hl
    | file a j rest ihf =>
      cases tail with
      | nil =>
        rw [lookupFile_single] at hl
        by_cases ham : a = m
        · subst ham
          simp only [FS.find, if_pos rfl] at hl
          injection hl with hl
          simp only [visible] at hv
          simp [walkFS, show excludedFile a = false from by simpa using hv, hl]
        · simp only [FS.find, if_neg ham] at hl
          have := ihf (by rw [lookupFile_single]; exact hl)
          simp only [walkFS, List.mem_append]
          exact Or.inr this
      | cons m2 t2 =>
        rw [lookupFile_cons2] at hl
        by_cases ham : a = m
        · subst ham
          simp only [FS.find, if_pos rfl] at hl
          exact Option.noConfusion hl
        · simp only [FS.find, if_neg ham] at hl
          have := ihf (by rw [lookupFile_cons2]; exact hl)
          simp only [walkFS, List.mem_append]
          exact Or.inr this
    | dir a me c rest ihc ihr =>
      cases tail with
      | nil =>
        rw [lookupFile_single] at hl
        by_cases ham : a = m
        · subst ham
          simp only [FS.find, if_pos rfl] at hl
          exact Option.noConfusion hl
        · simp only [FS.find, if_neg ham] at hl
          have := ihr (by rw [lookupFile_single]; exact hl)
          simp only [walkFS, List.mem_append]
          exact Or.inr this
      | cons m2 t2 =>
        rw [lookupFile_cons2] at hl
        by_cases ham : a = m
        · subst ham
          simp only [FS.find, if_pos rfl] at hl
          simp only [visible, Bool.and_eq_true, Bool.not_eq_true'] at hv
          have hmem := ih c (pre ++ [a]) i (by
            simpa using hv.2) hl
          simp only [walkFS, List.mem_append]
          left
          rw [if_neg (by simp [hv.1.1, hv.1.2])]
          have : pre ++ a :: m2 :: t2 = (pre ++ [a]) ++ (m2 :: t2) := by
            rw [List.append_assoc]; rfl
          rw [this]
          exact hmem
        · simp only [FS.find, if_neg ham] at hl
          have := ihr (by rw [lookupFile_cons2]; exact hl)
          simp only [walkFS, List.mem_append]
          exact Or.inr this

/-- A path at which a file sits admits no deeper file: file lookups are
prefix-free. -/
theorem lookupFile_prefix_none :
    ∀ (s1 s2 : Path) (t : FS) (j : FileInfo), t.lookupFile s1 = some j →
      s1 <+: s2 → s1 ≠ s2 → t.lookupFile s2 = none := by
  intro s1
  induction s1 with
  | nil =>
    intro s2 t j h _ _
    rw [lookupFile_nil_path] at h
    exact Option.noConfusion h
  | cons n tail ih =>
    intro s2 t j h hpre hne
    obtain ⟨s2', rfl⟩ := hpre
    cases tail with
    | nil =>
      rw [lookupFile_single] at h
      cases s2' with
      | nil => simp at hne
      | cons m2 t2 =>
        rw [show ([n] : Path) ++ m2 :: t2 = n :: m2 :: t2 from rfl, lookupFile_cons2]
        cases hf : t.find n with
        | none => rfl
        | some e =>
          cases e with
          | file i => rfl
          | dir me c =>
            exfalso
            rw [hf] at h
            exact Option.noConfusion h
    | cons m t2 =>
      rw [lookupFile_cons2] at h
      cases hf : t.find n with
      | none =>
        exfalso
        rw [hf] at h
        exact Option.noConfusion h
      | some e =>
        cases e with
        | file i =>
          exfalso
          rw [hf] at h
          exact Option.noConfusion h
        | dir me c =>
          rw [hf] at h
          have h' : c.lookupFile (m :: t2) = some j := h
          rw [show (n :: m :: t2 : Path) ++ s2' = n :: m :: (t2 ++ s2') from rfl,
            lookupFile_cons2, hf]
          show c.lookupFile (m :: (t2 ++ s2')) = none
          exact ih (m :: (t2 ++ s2')) c j h' ⟨s2', rfl⟩
            (by
              intro hc
              apply hne
              rw [show (n :: m :: t2 : Path) ++ s2' = n :: m :: (t2 ++ s2') from rfl,
                ← hc])


theorem visible_ne_nil {u : Path → Bool} {pre p : Path}
    (h : visible u pre p = true) : p ≠ [] := by
  intro hp
  subst hp
  simp [visible] at h

theorem walkRoot_mem_lookupFile {u : Path → Bool} {fs : FS} {p : Path} {i : FileInfo}
    (hwf : fs.wf = true) (h : (p, i) ∈ walkRoot u fs) :
    visible u [] p = true ∧ fs.lookupFile p = some i := by
  unfold walkRoot at h
  split at h
  · simp at h
  · obtain ⟨s, hp, hv, hl⟩ := walkFS_mem_lookupFile hwf h
    simp only [List.nil_append] at hp
    subst hp
    exact ⟨hv, hl⟩

theorem lookupFile_mem_walkRoot {u : Path → Bool} {fs : FS} {p : Path} {i : FileInfo}
    (hroot : u [] = false) (hv : visible u [] p = true)
    (hl : fs.lookupFile p = some i) : (p, i) ∈ walkRoot u fs := by
  unfold walkRoot
  rw [if_neg (by simp [hroot])]
  have := lookupFile_mem_walkFS p fs [] i hv hl
  simpa using this

theorem walk_paths_nodup {u : Path → Bool} :
    ∀ {fs : FS} {pre : Path}, fs.wf = true →
      ((walkFS u pre fs).map Prod.fst).Nodup := by
  intro fs
  induction fs with
  | nil => intro pre _; simp [walkFS]
  | file n j rest ih =>
    intro pre hwf
    rw [wf_file_iff] at hwf
    simp only [walkFS, List.map_append]
    refine List.Nodup.append ?_ (ih hwf.2) ?_
    · split <;> simp
    · intro p hp hp2
      split at hp
      · simp at hp
      · simp at hp
        subst hp
        obtain ⟨x, hmem, hq⟩ := List.mem_map.mp hp2
        obtain ⟨n2, s2, hps, hn2⟩ := walk_head hmem
        rw [hq] at hps
        have hcan := List.append_cancel_left hps
        injection hcan with h1 h2
        subst h1
        exact hwf.1 hn2
  | dir n me c rest ihc ihr =>
    intro pre hwf
    rw [wf_dir_iff] at hwf
    simp only [walkFS, List.map_append]
    refine List.Nodup.append ?_ (ihr hwf.2.2) ?_
    · split
      · simp
      · exact ihc hwf.2.1
    · intro p hp hp2
      split at hp
      · simp at hp
      · obtain ⟨x, hx, hxq⟩ := List.mem_map.mp hp
        obtain ⟨x2, hx2, hxq2⟩ := List.mem_map.mp hp2
        obtain ⟨n1, s1, hps1, hn1⟩ := walk_head hx
        obtain ⟨n2, s2, hps2, hn2⟩ := walk_head hx2
        rw [hxq] at hps1
        rw [hxq2] at hps2
        rw [List.append_assoc] at hps1
        rw [hps1] at hps2
        have hcan := List.append_cancel_left hps2
        rw [show ([n] : Path) ++ n1 :: s1 = n :: n1 :: s1 from rfl] at hcan
        injection hcan with h1 h2
        subst h1
        exact hwf.1 hn2

theorem walkRoot_paths_nodup {u : Path → Bool} {fs : FS} (hwf : fs.wf = true) :
    ((walkRoot u fs).map Prod.fst).Nodup := by
  unfold walkRoot
  split
  · simp
  · exact walk_paths_nodup hwf

/-- Paths delivered by the walk are mutually prefix-free. -/
theorem walkRoot_prefix_eq {u : Path → Bool} {fs : FS} {p1 p2 : Path}
    {i1 i2 : FileInfo} (hwf : fs.wf = true) (h1 : (p1, i1) ∈ walkRoot u fs)
    (h2 : (p2, i2) ∈ walkRoot u fs) (hpre : p1 <+: p2) : p1 = p2 := by
  by_contra hne
  have hl1 := (walkRoot_mem_lookupFile hwf h1).2
  have hl2 := (walkRoot_mem_lookupFile hwf h2).2
  rw [lookupFile_prefix_none p1 p2 fs i1 hl1 hpre hne] at hl2
  exact Option.noConfusion hl2

theorem wf_setFile : ∀ (p : Path) (t : FS) (i : FileInfo),
    t.wf = true → (t.setFile p i).wf = true := by
  intro p
  induction p with
  | nil => intro t i h; exact h
  | cons n tail ih =>
    intro t i hwf
    cases tail with
    | nil => exact wf_setEntry hwf rfl
    | cons m rest =>
      cases hf : t.find n with
      | some e =>
        cases e with
        | file j =>
          rw [show t.setFile (n :: m :: rest) i = t from by rw [FS.setFile, hf]]
          exact hwf
        | dir me c =>
          rw [show t.setFile (n :: m :: rest) i
              = t.setEntry n (.dir me (c.setFile (m :: rest) i)) from by
            rw [FS.setFile, hf]]
          exact wf_setEntry hwf
            (by simpa [entWf] using ih c i (wf_find_dir hwf hf))
      | none =>
        rw [show t.setFile (n :: m :: rest) i
            = t.setEntry n (.dir ⟨0, 0⟩ (FS.nil.setFile (m :: rest) i)) from by
          rw [FS.setFile, hf]]
        exact wf_setEntry hwf (by simpa [entWf] using ih FS.nil i rfl)

theorem dropLast_isPrefix : ∀ (p : Path), p.dropLast <+: p := by
  intro p
  induction p with
  | nil => exact List.nil_prefix
  | cons n tail ih =>
    cases tail with
    | nil => simp
    | cons m t2 =>
      rw [show (n :: m :: t2).dropLast = n :: (m :: t2).dropLast from rfl]
      exact List.cons_prefix_cons.mpr ⟨rfl, ih⟩

theorem not_prefix_dropLast {p : Path} (hne : p ≠ []) : ¬ p <+: p.dropLast := by
  intro h
  have h1 := h.length_le
  rw [List.length_dropLast] at h1
  have h2 : 0 < p.length := List.length_pos.mpr hne
  omega


/-! ## The copy-pass invariant -/

/-- What the copy pass guarantees for one walked source file: the target
carries a file there whose stat satisfies the up-to-date comparison, which
is the source's own stat when the file was (re)copied and the pre-existing
target stat otherwise. -/
def copyGood (t0 : FS) (pi : Path × FileInfo) (j : FileInfo) : Prop :=
  j.size = pi.2.size ∧ pi.2.mtime ≤ j.mtime ∧
  (shouldCopy t0 pi.1 pi.2 = true → j = pi.2) ∧
  (shouldCopy t0 pi.1 pi.2 = false → t0.lookupFile pi.1 = some j)

/-- Invariant of the copy-pass fold after processing the walk entries
`done`, for a conflict-free input with a working `shutil.copy2`. -/
def CopyInv (t0 : FS) (done : List (Path × FileInfo)) (st : CopyState) : Prop :=
  st.aborted = false ∧
  st.target.wf = true ∧
  st.srcPaths = done.map Prod.fst ∧
  (∀ pi ∈ done, (pi.1 ∈ st.copied ↔ shouldCopy t0 pi.1 pi.2 = true)) ∧
  (∀ pi ∈ done, ∃ j, st.target.lookupFile pi.1 = some j ∧ copyGood t0 pi j) ∧
  (∀ q : Path, (∀ pd ∈ done.map Prod.fst, ¬(q ≠ [] ∧ q <+: pd)) →
    st.target.lookupPath q = t0.lookupPath q) ∧
  (∀ q : Path, q ∉ done.map Prod.fst → st.target.lookupFile q = t0.lookupFile q) ∧
  (∀ p ∈ st.copied, p ∈ done.map Prod.fst)

theorem shouldCopy_false_file {t0 : FS} {p : Path} {i : FileInfo}
    (hd : t0.isDirAt p = false) (h : shouldCopy t0 p i = false) :
    ∃ j, t0.lookupFile p = some j ∧ i.size = j.size ∧ i.mtime ≤ j.mtime := by
  unfold shouldCopy at h
  cases hl : t0.lookupPath p with
  | none => rw [hl] at h; exact Bool.noConfusion h
  | some e =>
    cases e with
    | file j =>
      rw [hl] at h
      have h2 : (decide (i.mtime ≤ j.mtime) && decide (i.size = j.size)) = true := by
        simpa using h
      simp only [Bool.and_eq_true, decide_eq_true_eq] at h2
      exact ⟨j, lookupFile_eq_some_iff.mpr hl, h2.2, h2.1⟩
    | dir me c =>
      unfold FS.isDirAt at hd
      rw [hl] at hd
      exact Bool.noConfusion hd

/-- Unfolding of one copy step from a non-aborted state whose `os.makedirs`
succeeds. -/
theorem copyStep_eq (cf : Path → Bool) (tgt : FS) (sp cp : List Path)
    (er : List ErrEntry) (a : Path × FileInfo) (t1 : FS)
    (hmk : FS.mkdirs tgt a.1.dropLast = some t1) :
    copyStep cf ⟨tgt, sp, cp, er, false⟩ a =
      if shouldCopy t1 a.1 a.2 then
        if cf a.1 || t1.isDirAt a.1 then
          ⟨t1, sp ++ [a.1], cp, er ++ [.copyErr a.1], false⟩
        else ⟨t1.setFile a.1 a.2, sp ++ [a.1], cp ++ [a.1], er, false⟩
      else ⟨t1, sp ++ [a.1], cp, er, false⟩ := by
  simp [copyStep, hmk]

theorem copyStep_inv (inp : SyncInput) (t0 : FS)
    (hwfs : inp.source.wf = true)
    (hcf : inp.copyFail = fun _ => false)
    (hnoD : ∀ pi ∈ walkRoot inp.srcUnread inp.source, t0.isDirAt pi.1 = false)
    (done rest : List (Path × FileInfo)) (a : Path × FileInfo)
    (hL : walkRoot inp.srcUnread inp.source = done ++ a :: rest)
    (st : CopyState) (hinv : CopyInv t0 done st) (t1 : FS)
    (hmk0 : st.target.mkdirs a.1.dropLast = some t1) :
    CopyInv t0 (done ++ [a]) (copyStep inp.copyFail st a) := by
  obtain ⟨hA1, hA2, hA3, hA4, hA5, hP6, hP7, hA8⟩ := hinv
  obtain ⟨tgt, sp, cp, er, ab⟩ := st
  simp only at hA1 hA2 hA3 hA4 hA5 hP6 hP7 hA8
  subst hA1
  have haL : a ∈ walkRoot inp.srcUnread inp.source := by
    rw [hL]
    exact List.mem_append_right _ (List.mem_cons_self _ _)
  have hvis := walkRoot_mem_lookupFile hwfs haL
  have hane : a.1 ≠ [] := visible_ne_nil hvis.1
  have hnodupL : ((walkRoot inp.srcUnread inp.source).map Prod.fst).Nodup :=
    walkRoot_paths_nodup hwfs
  rw [hL] at hnodupL
  simp only [List.map_append, List.map_cons] at hnodupL
  rw [List.nodup_append] at hnodupL
  have hadone : a.1 ∉ done.map Prod.fst := fun hmem =>
    hnodupL.2.2 hmem (List.mem_cons_self _ _)
  have hdoneL : ∀ pd ∈ done.map Prod.fst,
      ∃ jd, (pd, jd) ∈ walkRoot inp.srcUnread inp.source := by
    intro pd hpd
    obtain ⟨x, hx, hxe⟩ := List.mem_map.mp hpd
    subst hxe
    exact ⟨x.2, by rw [hL]; exact List.mem_append_left _ hx⟩
  have hmk : tgt.mkdirs a.1.dropLast = some t1 := hmk0
  have hwf1 : t1.wf = true := wf_mkdirs _ _ _ hA2 hmk
  have hdp1 : t1.dirsPresent a.1.dropLast = true := mkdirs_dirsPresent _ _ _ hmk
  obtain ⟨hmc1, hmc2⟩ := mkdirs_char _ _ _ hmk
  have hpath1 : t1.lookupPath a.1 = tgt.lookupPath a.1 :=
    hmc1 a.1 (by rintro ⟨-, h2⟩; exact not_prefix_dropLast hane h2)
  have hpath0 : tgt.lookupPath a.1 = t0.lookupPath a.1 := by
    refine hP6 a.1 fun pd hpd => ?_
    rintro ⟨-, hpre⟩
    obtain ⟨jd, hjd⟩ := hdoneL pd hpd
    have heq := walkRoot_prefix_eq hwfs haL hjd hpre
    exact hadone (heq ▸ hpd)
  have hscEq : shouldCopy t1 a.1 a.2 = shouldCopy t0 a.1 a.2 := by
    unfold shouldCopy
    rw [hpath1, hpath0]
  have hdira : t1.isDirAt a.1 = false := by
    unfold FS.isDirAt
    rw [hpath1, hpath0]
    have h := hnoD a haL
    unfold FS.isDirAt at h
    exact h
  rw [copyStep_eq inp.copyFail tgt sp cp er a t1 hmk]
  by_cases hsc0 : shouldCopy t0 a.1 a.2 = true
  · rw [if_pos (hscEq.trans hsc0), if_neg (by rw [hcf]; simp [hdira])]
    obtain ⟨sf1, sf2, sf3⟩ := setFile_char a.1 t1 a.2 hdp1 hdira hane
    refine ⟨rfl, wf_setFile _ _ _ hwf1, by rw [hA3, List.map_append]; rfl, ?_, ?_, ?_, ?_, ?_⟩
    · intro pi hpi
      rcases List.mem_append.mp hpi with hpi | hpi
      · have hne : pi.1 ≠ a.1 := by
          intro hc
          exact hadone (hc ▸ List.mem_map.mpr ⟨pi, hpi, rfl⟩)
        simp only [List.mem_append, List.mem_singleton]
        rw [show (pi.1 ∈ cp ∨ pi.1 = a.1) ↔ pi.1 ∈ cp from by simp [hne]]
        exact hA4 pi hpi
      · simp only [List.mem_singleton] at hpi
        rw [hpi]
        constructor
        · intro _; exact hsc0
        · intro _; exact List.mem_append_right _ (List.mem_singleton.mpr rfl)
    · intro pi hpi
      rcases List.mem_append.mp hpi with hpi | hpi
      · have hne : pi.1 ≠ a.1 := by
          intro hc
          exact hadone (hc ▸ List.mem_map.mpr ⟨pi, hpi, rfl⟩)
        obtain ⟨j, hj, hg⟩ := hA5 pi hpi
        exact ⟨j, by rw [sf3 pi.1 hne, hmc2 pi.1]; exact hj, hg⟩
      · simp only [List.mem_singleton] at hpi
        rw [hpi]
        refine ⟨a.2, lookupFile_eq_some_iff.mpr sf1, rfl, le_refl _, fun _ => rfl,
          fun hc => by rw [hc] at hsc0; exact Bool.noConfusion hsc0⟩
    · intro q hq
      have hqa := hq a.1 (by
        rw [List.map_append]
        exact List.mem_append_right _ (List.mem_singleton.mpr rfl))
      rw [sf2 q hqa, hmc1 q (by
        rintro ⟨h1, h2⟩
        exact hqa ⟨h1, h2.trans (dropLast_isPrefix a.1)⟩)]
      exact hP6 q fun pd hpd => hq pd (by
        rw [List.map_append]
        exact List.mem_append_left _ hpd)
    · intro q hqn
      have hqd : q ∉ done.map Prod.fst := fun hc => hqn (by
        rw [List.map_append]
        exact List.mem_append_left _ hc)
      have hqa : q ≠ a.1 := fun hc => hqn (by
        rw [List.map_append, hc]
        exact List.mem_append_right _ (List.mem_singleton.mpr rfl))
      rw [sf3 q hqa, hmc2 q]
      exact hP7 q hqd
    · intro p hp
      rcases List.mem_append.mp hp with hp | hp
      · rw [List.map_append]
        exact List.mem_append_left _ (hA8 p hp)
      · simp only [List.mem_singleton] at hp
        rw [List.map_append, hp]
        exact List.mem_append_right _ (List.mem_singleton.mpr rfl)
  · rw [hscEq, if_neg hsc0]
    have hsc0' : shouldCopy t0 a.1 a.2 = false := by
      simpa using hsc0
    refine ⟨rfl, hwf1, by rw [hA3, List.map_append]; rfl, ?_, ?_, ?_, ?_, ?_⟩
    · intro pi hpi
      rcases List.mem_append.mp hpi with hpi | hpi
      · exact hA4 pi hpi
      · simp only [List.mem_singleton] at hpi
        rw [hpi]
        constructor
        · intro hc
          exact absurd (hA8 a.1 hc) hadone
        · intro hc
          rw [hsc0'] at hc
          exact Bool.noConfusion hc
    · intro pi hpi
      rcases List.mem_append.mp hpi with hpi | hpi
      · obtain ⟨j, hj, hg⟩ := hA5 pi hpi
        exact ⟨j, by rw [hmc2 pi.1]; exact hj, hg⟩
      · simp only [List.mem_singleton] at hpi
        rw [hpi]
        obtain ⟨j, hj0, hsz, hmt⟩ := shouldCopy_false_file (hnoD a haL) hsc0'
        refine ⟨j, ?_, hsz.symm, hmt,
          fun hc => by rw [hsc0'] at hc; exact Bool.noConfusion hc, fun _ => hj0⟩
        rw [hmc2 a.1, hP7 a.1 hadone]
        exact hj0
    · intro q hq
      have hqa := hq a.1 (by
        rw [List.map_append]
        exact List.mem_append_right _ (List.mem_singleton.mpr rfl))
      rw [hmc1 q (by
        rintro ⟨h1, h2⟩
        exact hqa ⟨h1, h2.trans (dropLast_isPrefix a.1)⟩)]
      exact hP6 q fun pd hpd => hq pd (by
        rw [List.map_append]
        exact List.mem_append_left _ hpd)
    · intro q hqn
      have hqd : q ∉ done.map Prod.fst := fun hc => hqn (by
        rw [List.map_append]
        exact List.mem_append_left _ hc)
      rw [hmc2 q]
      exact hP7 q hqd
    · intro p hp
      rw [List.map_append]
      exact List.mem_append_left _ (hA8 p hp)

/-- The copy pass of `rsync_directory`, on a well-formed conflict-free
input with a working `shutil.copy2`, establishes the invariant for the full
source walk. -/
theorem copyStep_eq_none (cf : Path → Bool) (tgt : FS) (sp cp : List Path)
    (er : List ErrEntry) (a : Path × FileInfo)
    (hmk : FS.mkdirs tgt a.1.dropLast = none) :
    copyStep cf ⟨tgt, sp, cp, er, false⟩ a =
      ⟨tgt, sp ++ [a.1], cp, er ++ [.general], true⟩ := by
  simp [copyStep, hmk]

theorem copyStep_eq_aborted (cf : Path → Bool) (tgt : FS) (sp cp : List Path)
    (er : List ErrEntry) (a : Path × FileInfo) :
    copyStep cf ⟨tgt, sp, cp, er, true⟩ a = ⟨tgt, sp, cp, er, true⟩ := by
  simp [copyStep]

theorem copyStep_abort_any (cf : Path → Bool) (st : CopyState) (a : Path × FileInfo)
    (h : st.aborted = true) : copyStep cf st a = st := by
  unfold copyStep
  rw [if_pos h]

theorem foldl_copyStep_aborted (cf : Path → Bool) :
    ∀ (l : List (Path × FileInfo)) (st : CopyState), st.aborted = true →
      l.foldl (copyStep cf) st = st := by
  intro l
  induction l with
  | nil => intro st _; rfl
  | cons a l2 ih =>
    intro st h
    rw [List.foldl_cons, copyStep_abort_any cf st a h]
    exact ih st h

theorem copyStep_none_eq (cf : Path → Bool) (st : CopyState) (a : Path × FileInfo)
    (hab : st.aborted = false) (hmk : st.target.mkdirs a.1.dropLast = none) :
    copyStep cf st a =
      ⟨st.target, st.srcPaths ++ [a.1], st.copied, st.errors ++ [.general], true⟩ := by
  obtain ⟨tgt, sp, cp, er, ab⟩ := st
  cases ab with
  | true => exact Bool.noConfusion hab
  | false => exact copyStep_eq_none cf tgt sp cp er a hmk

/-- How the copy pass ends, for a working `shutil.copy2` on a conflict-free
target: either every `os.makedirs` worked and the invariant holds over the
whole walk, or the walk splits at the first file entry whose dirname is
blocked — the invariant holds over the prefix, that `os.makedirs` raises,
the outer `except` appends a general error, and the rest of the walk is
skipped. -/
theorem copyPass_split (inp : SyncInput) (t0 : FS)
    (hwfs : inp.source.wf = true) (hwft : t0.wf = true)
    (hcf : inp.copyFail = fun _ => false)
    (hnoD : ∀ pi ∈ walkRoot inp.srcUnread inp.source, t0.isDirAt pi.1 = false) :
    ((copyPass inp t0).aborted = false ∧
      CopyInv t0 (walkRoot inp.srcUnread inp.source) (copyPass inp t0)) ∨
    (∃ d1 b d2 st1,
      walkRoot inp.srcUnread inp.source = d1 ++ b :: d2 ∧
      CopyInv t0 d1 st1 ∧
      st1.target.mkdirs b.1.dropLast = none ∧
      copyPass inp t0 = ⟨st1.target, st1.srcPaths ++ [b.1], st1.copied,
        st1.errors ++ [.general], true⟩) := by
  suffices h : ∀ (l done : List (Path × FileInfo)) (st : CopyState),
      walkRoot inp.srcUnread inp.source = done ++ l → CopyInv t0 done st →
      (((l.foldl (copyStep inp.copyFail) st).aborted = false ∧
        CopyInv t0 (done ++ l) (l.foldl (copyStep inp.copyFail) st)) ∨
      (∃ d1 b d2 st1, done ++ l = d1 ++ b :: d2 ∧ CopyInv t0 d1 st1 ∧
        st1.target.mkdirs b.1.dropLast = none ∧
        l.foldl (copyStep inp.copyFail) st = ⟨st1.target, st1.srcPaths ++ [b.1],
          st1.copied, st1.errors ++ [.general], true⟩)) by
    have hbase : CopyInv t0 [] ⟨t0, [], [], [], false⟩ :=
      ⟨rfl, hwft, rfl, fun pi hpi => absurd hpi (List.not_mem_nil pi),
        fun pi hpi => absurd hpi (List.not_mem_nil pi), fun q _ => rfl,
        fun q _ => rfl, fun p hp => absurd hp (List.not_mem_nil p)⟩
    have hfin := h (walkRoot inp.srcUnread inp.source) [] ⟨t0, [], [], [], false⟩
      (List.nil_append _).symm hbase
    rw [List.nil_append] at hfin
    exact hfin
  intro l
  induction l with
  | nil =>
    intro done st hL hinv
    left
    rw [List.append_nil]
    exact ⟨hinv.1, hinv⟩
  | cons a l2 ih =>
    intro done st hL hinv
    rw [List.foldl_cons]
    cases hmk : st.target.mkdirs a.1.dropLast with
    | none =>
      right
      have hstep := copyStep_none_eq inp.copyFail st a hinv.1 hmk
      refine ⟨done, a, l2, st, rfl, hinv, hmk, ?_⟩
      rw [hstep]
      exact foldl_copyStep_aborted inp.copyFail l2 _ rfl
    | some t1 =>
      have hstep := copyStep_inv inp t0 hwfs hcf hnoD done l2 a hL st hinv t1 hmk
      have hrec := ih (done ++ [a]) (copyStep inp.copyFail st a)
        (by rw [hL, List.append_assoc]; rfl) hstep
      rw [show done ++ a :: l2 = (done ++ [a]) ++ l2 from
        (List.append_assoc done [a] l2).symm]
      exact hrec

theorem copyPass_inv (inp : SyncInput) (t0 : FS)
    (hwfs : inp.source.wf = true) (hwft : t0.wf = true)
    (hcf : inp.copyFail = fun _ => false)
    (hnoB : ∀ pi ∈ walkRoot inp.srcUnread inp.source,
      ∀ r : Path, r ≠ [] → r <+: pi.1.dropLast → t0.lookupFile r = none)
    (hnoD : ∀ pi ∈ walkRoot inp.srcUnread inp.source, t0.isDirAt pi.1 = false) :
    CopyInv t0 (walkRoot inp.srcUnread inp.source) (copyPass inp t0) := by
  rcases copyPass_split inp t0 hwfs hwft hcf hnoD with ⟨_, hinv⟩ |
    ⟨d1, b, d2, st1, hW, hinv1, hmkb, _⟩
  · exact hinv
  · exfalso
    have hbW : b ∈ walkRoot inp.srcUnread inp.source := by
      rw [hW]
      exact List.mem_append_right _ (List.mem_cons_self _ _)
    obtain ⟨_, _, _, _, _, _, hP7₁, _⟩ := hinv1
    obtain ⟨t', ht'⟩ := mkdirs_success b.1.dropLast st1.target (by
      intro q hq hpre
      have hqa : q <+: b.1 := hpre.trans (dropLast_isPrefix b.1)
      have hqne : q ≠ b.1 := by
        intro hcontra
        subst hcontra
        exact not_prefix_dropLast hq hpre
      have hqdone : q ∉ d1.map Prod.fst := by
        intro hqd
        obtain ⟨x, hx, hxe⟩ := List.mem_map.mp hqd
        have hxW : x ∈ walkRoot inp.srcUnread inp.source := by
          rw [hW]
          exact List.mem_append_left _ hx
        exact hqne (hxe ▸ walkRoot_prefix_eq hwfs hxW hbW (hxe ▸ hqa))
      rw [hP7₁ q hqdone]
      exact hnoB b hbW q hq hpre)
    rw [hmkb] at ht'
    exact Option.noConfusion ht'


/-! ## Well-formedness of the pass outputs, for arbitrary inputs -/

theorem isDirAt_false_of_lookupFile {t : FS} {p : Path} {j : FileInfo}
    (h : t.lookupFile p = some j) : t.isDirAt p = false := by
  rw [lookupFile_eq_some_iff] at h
  rw [FS.isDirAt, h]

theorem prefix_dropLast_iff {r p : Path} (hp : p ≠ []) :
    r <+: p.dropLast ↔ r <+: p ∧ r ≠ p := by
  constructor
  · intro h
    refine ⟨h.trans (dropLast_isPrefix p), ?_⟩
    intro hc
    subst hc
    exact not_prefix_dropLast hp h
  · rintro ⟨h1, h2⟩
    have hle := h1.length_le
    have hlt : r.length < p.length := by
      rcases lt_or_eq_of_le hle with h | h
      · exact h
      · exact absurd (List.IsPrefix.eq_of_length h1 h) h2
    refine List.prefix_of_prefix_length_le h1 (dropLast_isPrefix p) ?_
    rw [List.length_dropLast]
    omega

theorem wf_copyStep (cf : Path → Bool) (st : CopyState) (a : Path × FileInfo)
    (h : st.target.wf = true) : (copyStep cf st a).target.wf = true := by
  obtain ⟨tgt, sp, cp, er, ab⟩ := st
  cases ab with
  | true => rw [copyStep_eq_aborted]; exact h
  | false =>
    cases hmk : FS.mkdirs tgt a.1.dropLast with
    | none => rw [copyStep_eq_none cf tgt sp cp er a hmk]; exact h
    | some t1 =>
      rw [copyStep_eq cf tgt sp cp er a t1 hmk]
      have hw1 : t1.wf = true := wf_mkdirs _ _ _ h hmk
      split
      · split
        · exact hw1
        · exact wf_setFile _ _ _ hw1
      · exact hw1

theorem wf_copyPass_fold (cf : Path → Bool) :
    ∀ (l : List (Path × FileInfo)) (st : CopyState), st.target.wf = true →
      (l.foldl (copyStep cf) st).target.wf = true := by
  intro l
  induction l with
  | nil => intro st h; exact h
  | cons a l2 ih =>
    intro st h
    rw [List.foldl_cons]
    exact ih _ (wf_copyStep cf st a h)

theorem wf_copyPass (inp : SyncInput) (t0 : FS) (h : t0.wf = true) :
    (copyPass inp t0).target.wf = true :=
  wf_copyPass_fold inp.copyFail _ ⟨t0, [], [], [], false⟩ h

theorem lookupFile_pruneRoot {u : Path → Bool} (fs : FS) (hwf : fs.wf = true)
    (q : Path) : (fs.pruneRoot u).lookupFile q = fs.lookupFile q := by
  unfold FS.pruneRoot
  split
  · rfl
  · exact lookupFile_prune q fs [] hwf

/-! ## The delete-pass invariant -/

/-- Invariant of the delete-pass fold over the walk of the copy-pass output
tree `tW`, after processing the walk entries `done`: the tree stays
well-formed, file lookups change only at processed paths, a processed file
outside `source_files` is gone and recorded in `deleted` (or its failed
`os.remove` is recorded in `errors`), files in `source_files` are never
touched, and `deleted` holds only processed paths outside `source_files`. -/
def DelInv (tW : FS) (srcPaths : List Path) (rf : Path → Bool)
    (done : List (Path × FileInfo)) (st : DelState) : Prop :=
  st.target.wf = true ∧
  (∀ q : Path, q ∉ done.map Prod.fst → st.target.lookupFile q = tW.lookupFile q) ∧
  (∀ pi ∈ done, pi.1 ∉ srcPaths → rf pi.1 = false →
    pi.1 ∈ st.deleted ∧ st.target.lookupFile pi.1 = none) ∧
  (∀ pi ∈ done, pi.1 ∉ srcPaths → rf pi.1 = true →
    ErrEntry.deleteErr pi.1 ∈ st.errors) ∧
  (∀ q ∈ srcPaths, st.target.lookupFile q = tW.lookupFile q) ∧
  (∀ p ∈ st.deleted, p ∈ done.map Prod.fst ∧ p ∉ srcPaths)

theorem deleteStep_inv (tW : FS) (srcPaths : List Path) (rf : Path → Bool)
    (done : List (Path × FileInfo)) (a : Path × FileInfo) (st : DelState)
    (hinv : DelInv tW srcPaths rf done st) :
    DelInv tW srcPaths rf (done ++ [a]) (deleteStep rf srcPaths st a) := by
  obtain ⟨hB1, hB2, hB3, hB4, hB5, hB6⟩ := hinv
  by_cases hsp : a.1 ∈ srcPaths
  · rw [show deleteStep rf srcPaths st a = st from by simp [deleteStep, hsp]]
    refine ⟨hB1, ?_, ?_, ?_, hB5, ?_⟩
    · intro q hq
      exact hB2 q fun hc => hq (by rw [List.map_append]; exact List.mem_append_left _ hc)
    · intro pi hpi hns hrf
      rcases List.mem_append.mp hpi with h | h
      · exact hB3 pi h hns hrf
      · simp only [List.mem_singleton] at h
        subst h
        exact absurd hsp hns
    · intro pi hpi hns hrf
      rcases List.mem_append.mp hpi with h | h
      · exact hB4 pi h hns hrf
      · simp only [List.mem_singleton] at h
        subst h
        exact absurd hsp hns
    · intro p hp
      obtain ⟨h1, h2⟩ := hB6 p hp
      exact ⟨by rw [List.map_append]; exact List.mem_append_left _ h1, h2⟩
  · by_cases hrf : rf a.1 = true
    · rw [show deleteStep rf srcPaths st a
          = { st with errors := st.errors ++ [.deleteErr a.1] } from by
        simp [deleteStep, hsp, hrf]]
      refine ⟨hB1, ?_, ?_, ?_, hB5, ?_⟩
      · intro q hq
        exact hB2 q fun hc => hq (by rw [List.map_append]; exact List.mem_append_left _ hc)
      · intro pi hpi hns hrf0
        rcases List.mem_append.mp hpi with h | h
        · exact hB3 pi h hns hrf0
        · simp only [List.mem_singleton] at h
          subst h
          rw [hrf] at hrf0
          exact Bool.noConfusion hrf0
      · intro pi hpi hns hrf1
        rcases List.mem_append.mp hpi with h | h
        · exact List.mem_append_left _ (hB4 pi h hns hrf1)
        · simp only [List.mem_singleton] at h
          subst h
          exact List.mem_append_right _ (List.mem_singleton.mpr rfl)
      · intro p hp
        obtain ⟨h1, h2⟩ := hB6 p hp
        exact ⟨by rw [List.map_append]; exact List.mem_append_left _ h1, h2⟩
    · have hrf0 : rf a.1 = false := by
        cases h : rf a.1 with
        | false => rfl
        | true => exact absurd h hrf
      rw [show deleteStep rf srcPaths st a
          = { st with target := st.target.removeFile a.1,
                      deleted := st.deleted ++ [a.1] } from by
        simp [deleteStep, hsp, hrf0]]
      obtain ⟨hrw, hrc⟩ := removeFile_char a.1 st.target hB1
      refine ⟨hrw, ?_, ?_, ?_, ?_, ?_⟩
      · intro q hq
        have hqa : q ≠ a.1 := fun hc => hq (by
          rw [List.map_append, hc]
          exact List.mem_append_right _ (List.mem_singleton.mpr rfl))
        rw [hrc q, if_neg hqa]
        exact hB2 q fun hc => hq (by rw [List.map_append]; exact List.mem_append_left _ hc)
      · intro pi hpi hns hrf1
        rcases List.mem_append.mp hpi with h | h
        · obtain ⟨hd1, hd2⟩ := hB3 pi h hns hrf1
          refine ⟨List.mem_append_left _ hd1, ?_⟩
          rw [hrc pi.1]
          split
          · rfl
          · exact hd2
        · simp only [List.mem_singleton] at h
          subst h
          refine ⟨List.mem_append_right _ (List.mem_singleton.mpr rfl), ?_⟩
          rw [hrc pi.1, if_pos rfl]
      · intro pi hpi hns hrf1
        rcases List.mem_append.mp hpi with h | h
        · exact hB4 pi h hns hrf1
        · simp only [List.mem_singleton] at h
          subst h
          rw [hrf0] at hrf1
          exact Bool.noConfusion hrf1
      · intro q hq
        have hqa : q ≠ a.1 := fun hc => hsp (hc ▸ hq)
        rw [hrc q, if_neg hqa]
        exact hB5 q hq
      · intro p hp
        rcases List.mem_append.mp hp with h | h
        · obtain ⟨h1, h2⟩ := hB6 p h
          exact ⟨by rw [List.map_append]; exact List.mem_append_left _ h1, h2⟩
        · simp only [List.mem_singleton] at h
          subst h
          refine ⟨by
            rw [List.map_append]
            exact List.mem_append_right _ (List.mem_singleton.mpr rfl), hsp⟩

theorem deletePass_inv (inp : SyncInput) (cs : CopyState)
    (hwf : cs.target.wf = true) :
    DelInv cs.target cs.srcPaths inp.removeFail
      (walkRoot inp.tgtUnread cs.target) (deletePass inp cs) := by
  suffices h : ∀ (l done : List (Path × FileInfo)) (st : DelState),
      DelInv cs.target cs.srcPaths inp.removeFail done st →
      DelInv cs.target cs.srcPaths inp.removeFail (done ++ l)
        (l.foldl (deleteStep inp.removeFail cs.srcPaths) st) by
    have hbase : DelInv cs.target cs.srcPaths inp.removeFail []
        ⟨cs.target, [], cs.errors⟩ :=
      ⟨hwf, fun q _ => rfl, fun pi hpi => absurd hpi (List.not_mem_nil pi),
        fun pi hpi => absurd hpi (List.not_mem_nil pi), fun q _ => rfl,
        fun p hp => absurd hp (List.not_mem_nil p)⟩
    have hfin := h (walkRoot inp.tgtUnread cs.target) [] ⟨cs.target, [], cs.errors⟩ hbase
    rw [List.nil_append] at hfin
    exact hfin
  intro l
  induction l with
  | nil => intro done st hinv; simpa using hinv
  | cons a l2 ih =>
    intro done st hinv
    rw [List.foldl_cons,
      show done ++ a :: l2 = (done ++ [a]) ++ l2 from (List.append_assoc done [a] l2).symm]
    exact ih (done ++ [a]) _ (deleteStep_inv _ _ _ done a st hinv)

/-! ## Claim C3 — deletion completeness -/

/-- **C3.** Every non-excluded file the delete-pass walk finds under the
target tree left by the copy pass whose relative path is not in the
`source_files` set is, after the sync, absent from the returned target tree
and listed in `deleted` — when its `os.remove` works; when `os.remove`
fails on it, a delete error for that path is in `errors`.  The statement
holds for every per-path `removeFail` oracle at once, so one file's failing
deletion never prevents the deletion of the remaining files. -/
theorem C3_deletion_completeness (inp : SyncInput) (t0 : FS) (res : FS × Ops)
    (htgt : inp.target = some t0) (hwft : t0.wf = true)
    (hok : rsyncDirectory inp = Except.ok res)
    (hab : (copyPass inp t0).aborted = false) :
    ∀ pi ∈ walkRoot inp.tgtUnread (copyPass inp t0).target,
      pi.1 ∉ (copyPass inp t0).srcPaths →
      (inp.removeFail pi.1 = false →
        pi.1 ∈ res.2.deleted ∧ res.1.lookupFile pi.1 = none) ∧
      (inp.removeFail pi.1 = true → ErrEntry.deleteErr pi.1 ∈ res.2.errors) := by
  have hgetD : inp.target.getD .nil = t0 := by rw [htgt]; rfl
  unfold rsyncDirectory at hok
  split at hok
  · exact Except.noConfusion hok
  · injection hok with hok
    subst hok
    rw [rsyncRun_eq, hgetD, if_neg (by simp [hab])]
    have hwfc : (copyPass inp t0).target.wf = true := wf_copyPass inp t0 hwft
    obtain ⟨hD1, hD2, hD3, hD4, hD5, hD6⟩ := deletePass_inv inp (copyPass inp t0) hwfc
    intro pi hpi hns
    constructor
    · intro hrf
      obtain ⟨h1, h2⟩ := hD3 pi hpi hns hrf
      exact ⟨h1, by rw [lookupFile_pruneRoot _ hD1, h2]⟩
    · intro hrf
      exact hD4 pi hpi hns hrf

/-- Concrete instance of C3: in the walkthrough scenario the stale target
file `c.txt` is walked, is not a source path, is reported deleted and is
gone from the returned tree. -/
theorem C3_witness :
    exInputC10.target = some exTargetC10 ∧ exTargetC10.wf = true ∧
    rsyncDirectory exInputC10 = Except.ok (rsyncRun exInputC10) ∧
    (copyPass exInputC10 exTargetC10).aborted = false ∧
    (["c.txt"], (⟨2, 1⟩ : FileInfo)) ∈
      walkRoot exInputC10.tgtUnread (copyPass exInputC10 exTargetC10).target ∧
    ["c.txt"] ∉ (copyPass exInputC10 exTargetC10).srcPaths ∧
    ((exInputC10.removeFail ["c.txt"] = false →
        ["c.txt"] ∈ (rsyncRun exInputC10).2.deleted ∧
        (rsyncRun exInputC10).1.lookupFile ["c.txt"] = none) ∧
      (exInputC10.removeFail ["c.txt"] = true →
        ErrEntry.deleteErr ["c.txt"] ∈ (rsyncRun exInputC10).2.errors)) :=
  ⟨rfl, by decide, rfl, by decide, by decide, by decide,
    C3_deletion_completeness exInputC10 exTargetC10 (rsyncRun exInputC10) rfl
      (by decide) rfl (by decide) (["c.txt"], ⟨2, 1⟩) (by decide) (by decide)⟩


/-! ## Claim C1 — the incremental copy decision -/

/-- The spec's `shouldCopy` condition, stated in its own words: the target
path does not exist, or it holds a file of a different byte size, or a file
strictly older than the source. -/
def specShouldCopy (t0 : FS) (p : Path) (i : FileInfo) : Prop :=
  t0.lookupPath p = none ∨
    ∃ j, t0.lookupPath p = some (.file j) ∧ (i.size ≠ j.size ∨ j.mtime < i.mtime)

/-- On a path that does not hold a directory, the code's `should_copy`
agrees with the spec's three-way disjunction. -/
theorem shouldCopy_iff_spec {t0 : FS} {p : Path} {i : FileInfo}
    (hd : t0.isDirAt p = false) :
    shouldCopy t0 p i = true ↔ specShouldCopy t0 p i := by
  unfold shouldCopy specShouldCopy
  cases hl : t0.lookupPath p with
  | none => simp
  | some e =>
    cases e with
    | file j =>
      constructor
      · intro h
        have h2 : (!(decide (i.mtime ≤ j.mtime) && decide (i.size = j.size))) = true := h
        refine Or.inr ⟨j, rfl, ?_⟩
        by_contra hc
        push_neg at hc
        obtain ⟨hsz, hmt⟩ := hc
        rw [show decide (i.mtime ≤ j.mtime) = true from decide_eq_true (by omega),
          show decide (i.size = j.size) = true from decide_eq_true (by omega)] at h2
        exact Bool.noConfusion h2
      · rintro (h | ⟨j', hj', hcase⟩)
        · exact Option.noConfusion h
        · injection hj' with hj'
          injection hj' with hj'
          subst hj'
          show (!(decide (i.mtime ≤ j.mtime) && decide (i.size = j.size))) = true
          cases hcase with
          | inl hsz =>
            rw [decide_eq_false hsz, Bool.and_false]
            rfl
          | inr hmt =>
            rw [decide_eq_false (by omega : ¬ i.mtime ≤ j.mtime), Bool.false_and]
            rfl
    | dir me c =>
      unfold FS.isDirAt at hd
      rw [hl] at hd
      exact Bool.noConfusion hd

/-- **C1.** For a target tree that does not conflict in kind with the
source walk (no pre-existing target file blocks an intermediate directory,
no target directory sits at a walked file's path) and a working
`shutil.copy2`, every file yielded by the source walk is recorded in
`copied` exactly when the spec's condition holds — the target path does not
exist, the sizes differ, or the source is strictly newer — and otherwise
the file's target entry is byte-for-byte the pre-sync one in the returned
tree. -/
theorem C1_copy_decision (inp : SyncInput) (t0 : FS) (res : FS × Ops)
    (htgt : inp.target = some t0)
    (hwfs : inp.source.wf = true) (hwft : t0.wf = true)
    (hcf : inp.copyFail = fun _ => false)
    (hnoB : ∀ pi ∈ walkRoot inp.srcUnread inp.source,
      ∀ r ∈ pi.1.dropLast.inits, r ≠ [] → t0.lookupFile r = none)
    (hnoD : ∀ pi ∈ walkRoot inp.srcUnread inp.source, t0.isDirAt pi.1 = false)
    (hok : rsyncDirectory inp = Except.ok res) :
    ∀ pi ∈ walkRoot inp.srcUnread inp.source,
      (pi.1 ∈ res.2.copied ↔ specShouldCopy t0 pi.1 pi.2) ∧
      (¬ specShouldCopy t0 pi.1 pi.2 →
        res.1.lookupFile pi.1 = t0.lookupFile pi.1) := by
  have hgetD : inp.target.getD .nil = t0 := by rw [htgt]; rfl
  have hnoB' : ∀ pi ∈ walkRoot inp.srcUnread inp.source,
      ∀ r : Path, r ≠ [] → r <+: pi.1.dropLast → t0.lookupFile r = none :=
    fun pi hpi r hr hpre => hnoB pi hpi r ((List.mem_inits _ _).mpr hpre) hr
  obtain ⟨hA1, hA2, hA3, hA4, hA5, hP6, hP7, hA8⟩ :=
    copyPass_inv inp t0 hwfs hwft hcf hnoB' hnoD
  unfold rsyncDirectory at hok
  split at hok
  · exact Except.noConfusion hok
  · injection hok with hok
    subst hok
    rw [rsyncRun_eq, hgetD, if_neg (by simp [hA1])]
    obtain ⟨hD1, hD2, hD3, hD4, hD5, hD6⟩ :=
      deletePass_inv inp (copyPass inp t0) (wf_copyPass inp t0 hwft)
    intro pi hpi
    have hsceq : shouldCopy t0 pi.1 pi.2 = true ↔ specShouldCopy t0 pi.1 pi.2 :=
      shouldCopy_iff_spec (hnoD pi hpi)
    constructor
    · exact (hA4 pi hpi).trans hsceq
    · intro hns
      have hsc0 : shouldCopy t0 pi.1 pi.2 = false := by
        cases h : shouldCopy t0 pi.1 pi.2 with
        | false => rfl
        | true => exact absurd (hsceq.mp h) hns
      obtain ⟨j, hj1, hgood⟩ := hA5 pi hpi
      have hj0 : t0.lookupFile pi.1 = some j := hgood.2.2.2 hsc0
      have hsrc : pi.1 ∈ (copyPass inp t0).srcPaths := by
        rw [hA3]
        exact List.mem_map.mpr ⟨pi, hpi, rfl⟩
      show ((deletePass inp (copyPass inp t0)).target.pruneRoot inp.tgtUnread).lookupFile pi.1
          = t0.lookupFile pi.1
      rw [lookupFile_pruneRoot _ hD1, hD5 pi.1 hsrc, hj1, hj0]

/-- Concrete instance of C1: in the walkthrough scenario `sub/b.txt` is
absent from the target, so it is copied; the theorem's hypotheses all hold
for that input. -/
theorem C1_witness :
    exInputC10.target = some exTargetC10 ∧
    exSourceC10.wf = true ∧ exTargetC10.wf = true ∧
    exInputC10.copyFail = noFail ∧
    (∀ pi ∈ walkRoot exInputC10.srcUnread exInputC10.source,
      ∀ r ∈ pi.1.dropLast.inits, r ≠ [] → exTargetC10.lookupFile r = none) ∧
    (∀ pi ∈ walkRoot exInputC10.srcUnread exInputC10.source,
      exTargetC10.isDirAt pi.1 = false) ∧
    (["sub", "b.txt"], (⟨3, 10⟩ : FileInfo)) ∈
      walkRoot exInputC10.srcUnread exInputC10.source ∧
    ((["sub", "b.txt"] ∈ (rsyncRun exInputC10).2.copied ↔
        specShouldCopy exTargetC10 ["sub", "b.txt"] ⟨3, 10⟩) ∧
      (¬ specShouldCopy exTargetC10 ["sub", "b.txt"] ⟨3, 10⟩ →
        (rsyncRun exInputC10).1.lookupFile ["sub", "b.txt"] =
          exTargetC10.lookupFile ["sub", "b.txt"])) :=
  ⟨rfl, by decide, by decide, rfl, by decide, by decide, by decide,
    C1_copy_decision exInputC10 exTargetC10 (rsyncRun exInputC10) rfl (by decide)
      (by decide) rfl (by decide) (by decide) rfl (["sub", "b.txt"], ⟨3, 10⟩)
      (by decide)⟩


/-! ## Claim C8 — the empty-directory prune pass -/

theorem isNil_eq {fs : FS} (h : fs.isNil = true) : fs = .nil := by
  cases fs with
  | nil => rfl
  | file n i rest => exact Bool.noConfusion h
  | dir n me c rest => exact Bool.noConfusion h

/-- Where a directory of the walked tree ends up after the bottom-up prune:
removed when readable with recursively pruned-empty contents, kept with its
pruned contents when they are non-empty, kept untouched when unreadable.
(The ancestors must be readable for the walk to reach the directory.) -/
theorem lookupPath_prune {u : Path → Bool} :
    ∀ (p : Path) (fs : FS) (pre : Path) (me : FileInfo) (c : FS), fs.wf = true →
      fs.lookupPath p = some (.dir me c) →
      (∀ r : Path, r ≠ [] → r <+: p → r ≠ p → u (pre ++ r) = false) →
      (FS.prune u pre fs).lookupPath p =
        if u (pre ++ p) then some (.dir me c)
        else if (FS.prune u (pre ++ p) c).isNil then none
        else some (.dir me (FS.prune u (pre ++ p) c)) := by
  intro p
  induction p with
  | nil =>
    intro fs pre me c _ hl _
    exact Option.noConfusion hl
  | cons n tail ih =>
    intro fs pre me c hwf hl hanc
    cases tail with
    | nil =>
      have hf : fs.find n = some (.dir me c) := hl
      rw [show (FS.prune u pre fs).lookupPath [n] = (FS.prune u pre fs).find n from rfl,
        find_prune hwf, hf]
    | cons m t2 =>
      rw [lookupPath_cons] at hl
      cases hf : fs.find n with
      | none =>
        rw [hf] at hl
        exact Option.noConfusion hl
      | some e =>
        cases e with
        | file i =>
          rw [hf] at hl
          have hl' : (if (m :: t2 : Path) = [] then some (Ent.file i) else none)
              = some (Ent.dir me c) := hl
          rw [if_neg (by simp : ¬ (m :: t2 : Path) = [])] at hl'
          exact Option.noConfusion hl'
        | dir me' c' =>
          rw [hf] at hl
          have hl2 : (if (m :: t2 : Path) = [] then some (Ent.dir me' c')
              else c'.lookupPath (m :: t2)) = some (Ent.dir me c) := hl
          rw [if_neg (by simp : ¬ (m :: t2 : Path) = [])] at hl2
          clear hl
          have hl := hl2
          have hun : u (pre ++ [n]) = false :=
            hanc [n] (by simp) (List.cons_prefix_cons.mpr ⟨rfl, List.nil_prefix⟩) (by simp)
          have hanc' : ∀ r : Path, r ≠ [] → r <+: m :: t2 → r ≠ m :: t2 →
              u ((pre ++ [n]) ++ r) = false := by
            intro r hr hpre hne
            have h1 := hanc (n :: r) (by simp) (List.cons_prefix_cons.mpr ⟨rfl, hpre⟩)
              (by simpa using hne)
            rw [← List.append_cons]
            exact h1
          have hcwf : c'.wf = true := wf_find_dir hwf hf
          have hih := ih c' (pre ++ [n]) me c hcwf hl hanc'
          have happ : pre ++ n :: m :: t2 = (pre ++ [n]) ++ m :: t2 :=
            List.append_cons _ _ _
          have hpf : (FS.prune u pre fs).find n =
              if (FS.prune u (pre ++ [n]) c').isNil then none
              else some (.dir me' (FS.prune u (pre ++ [n]) c')) := by
            rw [find_prune hwf, hf]
            show (if u (pre ++ [n]) then some (Ent.dir me' c')
              else if (FS.prune u (pre ++ [n]) c').isNil then none
              else some (Ent.dir me' (FS.prune u (pre ++ [n]) c'))) = _
            rw [if_neg (by simp [hun])]
          rw [lookupPath_cons, hpf]
          by_cases hnil : (FS.prune u (pre ++ [n]) c').isNil = true
          · rw [if_pos hnil]
            show (none : Option Ent) = _
            rw [isNil_eq hnil] at hih
            have hnil0 : FS.nil.lookupPath (m :: t2) = (none : Option Ent) := by
              rw [lookupPath_cons]
              rfl
            rw [hnil0] at hih
            have hih' := hih.symm.symm
            rw [happ]
            by_cases hu2 : u ((pre ++ [n]) ++ m :: t2) = true
            · rw [if_pos hu2] at hih'
              exact absurd hih' (by simp)
            · rw [if_neg hu2] at hih'
              rw [if_neg hu2]
              by_cases hnil2 : (FS.prune u ((pre ++ [n]) ++ m :: t2) c).isNil = true
              · rw [if_pos hnil2]
              · rw [if_neg hnil2] at hih'
                exact absurd hih' (by simp)
          · rw [if_neg hnil]
            show (FS.prune u (pre ++ [n]) c').lookupPath (m :: t2) = _
            rw [hih, happ]

/-- **C8.** After the deletion pass of a non-aborted incremental run the
returned tree is the delete-pass tree pruned bottom-up; the prune appends
no error entry, removes no regular file, and at every directory of the
delete-pass tree with readable ancestors: the directory is removed exactly
when it is readable and its recursively pruned contents are empty, is kept
holding its pruned contents when they are not, and is kept untouched when
it is unreadable — so a directory non-empty for reasons unrelated to this
sync's deletions is retained. -/
theorem C8_prune_semantics (inp : SyncInput) (t0 : FS) (res : FS × Ops)
    (htgt : inp.target = some t0) (hwft : t0.wf = true)
    (hok : rsyncDirectory inp = Except.ok res)
    (hab : (copyPass inp t0).aborted = false)
    (hroot : inp.tgtUnread [] = false) :
    res.1 = (deletePass inp (copyPass inp t0)).target.pruneRoot inp.tgtUnread ∧
    res.2.errors = (deletePass inp (copyPass inp t0)).errors ∧
    (∀ q : Path, res.1.lookupFile q =
      (deletePass inp (copyPass inp t0)).target.lookupFile q) ∧
    (∀ (p : Path) (me : FileInfo) (c : FS),
      (deletePass inp (copyPass inp t0)).target.lookupPath p = some (.dir me c) →
      (∀ r ∈ p.dropLast.inits, r ≠ [] → inp.tgtUnread r = false) →
      ((inp.tgtUnread p = false → (FS.prune inp.tgtUnread p c).isNil = true →
          res.1.lookupPath p = none) ∧
        (inp.tgtUnread p = false → (FS.prune inp.tgtUnread p c).isNil = false →
          res.1.lookupPath p = some (.dir me (FS.prune inp.tgtUnread p c))) ∧
        (inp.tgtUnread p = true →
          res.1.lookupPath p = some (.dir me c)))) := by
  have hgetD : inp.target.getD .nil = t0 := by rw [htgt]; rfl
  unfold rsyncDirectory at hok
  split at hok
  · exact Except.noConfusion hok
  · injection hok with hok
    subst hok
    rw [rsyncRun_eq, hgetD, if_neg (by simp [hab])]
    have hwfd : (deletePass inp (copyPass inp t0)).target.wf = true :=
      (deletePass_inv inp (copyPass inp t0) (wf_copyPass inp t0 hwft)).1
    refine ⟨rfl, rfl, ?_, ?_⟩
    · intro q
      exact lookupFile_pruneRoot _ hwfd q
    · intro p me c hp hanc
      have hpne : p ≠ [] := by
        intro hc
        subst hc
        exact Option.noConfusion hp
      have hanc' : ∀ r : Path, r ≠ [] → r <+: p → r ≠ p →
          inp.tgtUnread (([] : Path) ++ r) = false := by
        intro r hr hpre hne
        rw [List.nil_append]
        exact hanc r ((List.mem_inits _ _).mpr ((prefix_dropLast_iff hpne).mpr ⟨hpre, hne⟩)) hr
      have hform := lookupPath_prune p
        (deletePass inp (copyPass inp t0)).target [] me c hwfd hp hanc'
      simp only [List.nil_append] at hform
      have hpr : ((deletePass inp (copyPass inp t0)).target.pruneRoot inp.tgtUnread).lookupPath p
          = (FS.prune inp.tgtUnread []
              (deletePass inp (copyPass inp t0)).target).lookupPath p := by
        unfold FS.pruneRoot
        rw [if_neg (by simp [hroot])]
      refine ⟨?_, ?_, ?_⟩
      · intro hu hnil
        show ((deletePass inp (copyPass inp t0)).target.pruneRoot inp.tgtUnread).lookupPath p
          = none
        rw [hpr, hform, if_neg (by simp [hu]), if_pos hnil]
      · intro hu hnil
        show ((deletePass inp (copyPass inp t0)).target.pruneRoot inp.tgtUnread).lookupPath p
          = some (Ent.dir me (FS.prune inp.tgtUnread p c))
        rw [hpr, hform, if_neg (by simp [hu]), if_neg (by simp [hnil])]
      · intro hu
        show ((deletePass inp (copyPass inp t0)).target.pruneRoot inp.tgtUnread).lookupPath p
          = some (Ent.dir me c)
        rw [hpr, hform, if_pos hu]

def exSourceC8 : FS := .file "a.txt" ⟨5, 10⟩ .nil

def exTargetC8 : FS :=
  .file "a.txt" ⟨5, 20⟩ (.dir "old" ⟨0, 0⟩ (.file "c.txt" ⟨2, 1⟩ .nil) .nil)

def exInputC8 : SyncInput := ⟨exSourceC8, some exTargetC8, false, noFail, noFail, noFail, noFail⟩

/-- Concrete instance of C8: the stale directory `old` loses its only file
to the delete pass, is empty when the bottom-up prune reaches it, and is
removed — with no new error entry. -/
theorem C8_witness :
    exInputC8.target = some exTargetC8 ∧ exTargetC8.wf = true ∧
    rsyncDirectory exInputC8 = Except.ok (rsyncRun exInputC8) ∧
    (copyPass exInputC8 exTargetC8).aborted = false ∧
    exInputC8.tgtUnread [] = false ∧
    (deletePass exInputC8 (copyPass exInputC8 exTargetC8)).target.lookupPath ["old"]
      = some (.dir ⟨0, 0⟩ .nil) ∧
    ((rsyncRun exInputC8).1.lookupPath ["old"] = none ∧
      (rsyncRun exInputC8).2.errors
        = (deletePass exInputC8 (copyPass exInputC8 exTargetC8)).errors) :=
  ⟨rfl, by decide, rfl, by decide, by decide, by decide, by
    have h := C8_prune_semantics exInputC8 exTargetC8 (rsyncRun exInputC8) rfl
      (by decide) rfl (by decide) (by decide)
    exact ⟨(h.2.2.2 ["old"] ⟨0, 0⟩ .nil (by decide) (by decide)).1 (by decide)
      (by decide), h.2.1⟩⟩


/-- `should_copy` is false on a target whose file at the path is at least as
new and of equal size. -/
theorem shouldCopy_eq_false_of_upToDate {t : FS} {p : Path} {i j : FileInfo}
    (hj : t.lookupFile p = some j) (hsz : i.size = j.size) (hmt : i.mtime ≤ j.mtime) :
    shouldCopy t p i = false := by
  have hpath : t.lookupPath p = some (.file j) := lookupFile_eq_some_iff.mp hj
  unfold shouldCopy
  rw [hpath]
  show (!(decide (i.mtime ≤ j.mtime) && decide (i.size = j.size))) = false
  rw [decide_eq_true hmt, decide_eq_true hsz]
  rfl

/-- A copy pass over walk entries that all already have an up-to-date file
in the target is inert: every `os.makedirs` finds its directories present,
every `should_copy` is false, and the fold only extends `source_files`. -/
theorem copyPass_inert (cf : Path → Bool) :
    ∀ (l : List (Path × FileInfo)) (t : FS) (sp cp : List Path) (er : List ErrEntry),
      (∀ pi ∈ l, ∃ j, t.lookupFile pi.1 = some j ∧
        pi.2.size = j.size ∧ pi.2.mtime ≤ j.mtime) →
      l.foldl (copyStep cf) ⟨t, sp, cp, er, false⟩
        = ⟨t, sp ++ l.map Prod.fst, cp, er, false⟩ := by
  intro l
  induction l with
  | nil =>
    intro t sp cp er _
    simp
  | cons a l2 ih =>
    intro t sp cp er hgood
    obtain ⟨j, hj, hsz, hmt⟩ := hgood a (List.mem_cons_self _ _)
    have hdp : t.dirsPresent a.1.dropLast = true :=
      dirsPresent_of_lookupFile a.1 t j hj
    have hmk : t.mkdirs a.1.dropLast = some t := mkdirs_of_dirsPresent _ _ hdp
    have hsc : shouldCopy t a.1 a.2 = false :=
      shouldCopy_eq_false_of_upToDate hj hsz hmt
    rw [List.foldl_cons, copyStep_eq cf t sp cp er a t hmk,
      if_neg (by simp [hsc])]
    rw [ih t (sp ++ [a.1]) cp er
      (fun pi hpi => hgood pi (List.mem_cons_of_mem _ hpi))]
    simp

/-! ## Claim C4 — idempotence of the incremental sync -/

/-- A sync call with no external interference: the target exists, the
top-level `os.makedirs` works, every directory is readable and every
per-file copy and remove succeeds. -/
def cleanInput (s t0 : FS) : SyncInput := ⟨s, some t0, false, noFail, noFail, noFail, noFail⟩

theorem wf_pruneRoot {u : Path → Bool} (fs : FS) (h : fs.wf = true) :
    (fs.pruneRoot u).wf = true := by
  unfold FS.pruneRoot
  split
  · exact h
  · exact wf_prune h

/-- What one interference-free run leaves behind on a conflict-free target:
a well-formed tree that carries an up-to-date file at every source walk
path, carries no other file the walk of an identical tree would visit, and
whose remaining files all come from the walk or from the original target. -/
theorem rsyncRunPost (s t0 : FS) (hwft : t0.wf = true)
    (hinv : CopyInv t0 (walkRoot noFail s) (copyPass (cleanInput s t0) t0)) :
    (rsyncRun (cleanInput s t0)).1.wf = true ∧
    (∀ pi ∈ walkRoot noFail s, ∃ j,
      (rsyncRun (cleanInput s t0)).1.lookupFile pi.1 = some j ∧ copyGood t0 pi j) ∧
    (∀ (q : Path) (j : FileInfo), (rsyncRun (cleanInput s t0)).1.lookupFile q = some j →
      q ∈ (walkRoot noFail s).map Prod.fst ∨ t0.lookupFile q = some j) ∧
    (∀ p : Path, visible noFail [] p = true → p ∉ (walkRoot noFail s).map Prod.fst →
      (rsyncRun (cleanInput s t0)).1.lookupFile p = none) := by
  obtain ⟨hA1, hA2, hA3, hA4, hA5, hP6, hP7, hA8⟩ := hinv
  obtain ⟨hD1, hD2, hD3, hD4, hD5, hD6⟩ :=
    deletePass_inv (cleanInput s t0) (copyPass (cleanInput s t0) t0) hA2
  have hgetD : (cleanInput s t0).target.getD .nil = t0 := rfl
  have ht3 : (rsyncRun (cleanInput s t0)).1
      = (deletePass (cleanInput s t0) (copyPass (cleanInput s t0) t0)).target.pruneRoot
          (cleanInput s t0).tgtUnread := by
    rw [rsyncRun_eq, hgetD, if_neg (by simp [hA1])]
  have hprune : ∀ q : Path,
      ((deletePass (cleanInput s t0) (copyPass (cleanInput s t0) t0)).target.pruneRoot
        (cleanInput s t0).tgtUnread).lookupFile q
      = (deletePass (cleanInput s t0) (copyPass (cleanInput s t0) t0)).target.lookupFile q :=
    fun q => lookupFile_pruneRoot _ hD1 q
  rw [ht3]
  refine ⟨wf_pruneRoot _ hD1, ?_, ?_, ?_⟩
  · intro pi hpi
    obtain ⟨j, hj, hg⟩ := hA5 pi hpi
    have hsrc : pi.1 ∈ (copyPass (cleanInput s t0) t0).srcPaths := by
      rw [hA3]
      exact List.mem_map.mpr ⟨pi, hpi, rfl⟩
    exact ⟨j, by rw [hprune, hD5 pi.1 hsrc, hj], hg⟩
  · intro q j hq
    rw [hprune] at hq
    by_cases hmem : q ∈ (walkRoot (cleanInput s t0).tgtUnread
        (copyPass (cleanInput s t0) t0).target).map Prod.fst
    · obtain ⟨pi2, hpi2, hpe⟩ := List.mem_map.mp hmem
      by_cases hsrc : q ∈ (copyPass (cleanInput s t0) t0).srcPaths
      · rw [hA3] at hsrc
        exact Or.inl hsrc
      · exfalso
        have h2 := (hD3 pi2 hpi2 (fun hc => hsrc (hpe ▸ hc)) rfl).2
        rw [hpe] at h2
        rw [h2] at hq
        exact Option.noConfusion hq
    · rw [hD2 q hmem] at hq
      by_cases hW : q ∈ (walkRoot noFail s).map Prod.fst
      · exact Or.inl hW
      · right
        rw [← hP7 q hW]
        exact hq
  · intro p hvis hpW
    cases hq0 : ((deletePass (cleanInput s t0) (copyPass (cleanInput s t0) t0)).target.pruneRoot
        (cleanInput s t0).tgtUnread).lookupFile p with
    | none => rfl
    | some j =>
      exfalso
      rw [hprune] at hq0
      by_cases hmem : p ∈ (walkRoot (cleanInput s t0).tgtUnread
          (copyPass (cleanInput s t0) t0).target).map Prod.fst
      · obtain ⟨pi2, hpi2, hpe⟩ := List.mem_map.mp hmem
        have hns : pi2.1 ∉ (copyPass (cleanInput s t0) t0).srcPaths := by
          intro hc
          rw [hA3] at hc
          exact hpW (hpe ▸ hc)
        have h2 := (hD3 pi2 hpi2 hns rfl).2
        rw [hpe] at h2
        rw [h2] at hq0
        exact Option.noConfusion hq0
      · rw [hD2 p hmem] at hq0
        exact hmem (List.mem_map.mpr ⟨(p, j), lookupFile_mem_walkRoot rfl hvis hq0, rfl⟩)

/-- **C4 (amended).** Two interference-free incremental runs from an
unchanged source leave the second run with empty `copied` and empty
`deleted` lists, provided no pre-existing target *directory* sits at a
walked file's path.  (Without that proviso the claim fails: see the
counterexample, where a directory's own stat satisfies the up-to-date
comparison on the first run and the empty-directory prune then removes it,
making the second run copy.  A pre-existing target *file* blocking an
intermediate directory needs no proviso: it makes both runs abort at the
same walk entry with a general error, each reporting empty `copied` and
`deleted`.) -/
theorem C4_second_run_empty (s t0 : FS) (hwfs : s.wf = true) (hwft : t0.wf = true)
    (hnoD : ∀ pi ∈ walkRoot noFail s, t0.isDirAt pi.1 = false) :
    (rsyncRun (cleanInput s (rsyncRun (cleanInput s t0)).1)).2.copied = [] ∧
    (rsyncRun (cleanInput s (rsyncRun (cleanInput s t0)).1)).2.deleted = [] := by
  rcases copyPass_split (cleanInput s t0) t0 hwfs hwft rfl hnoD with ⟨hab, hinv⟩ |
    ⟨d1, b, d2, st1, hW, hinv1, hmkb, hcs⟩
  · -- the first run's copy pass completed; the second run's copy pass is
    -- inert over the result tree and its delete pass finds nothing stale
    obtain ⟨hP1, hP2, hP3, hP4⟩ := rsyncRunPost s t0 hwft hinv
    obtain ⟨t3, ht3⟩ : ∃ t3, t3 = (rsyncRun (cleanInput s t0)).1 := ⟨_, rfl⟩
    rw [← ht3] at hP1 hP2 hP3 hP4
    rw [← ht3]
    have hgood : ∀ pi ∈ walkRoot noFail s, ∃ j, t3.lookupFile pi.1 = some j ∧
        pi.2.size = j.size ∧ pi.2.mtime ≤ j.mtime := by
      intro pi hpi
      obtain ⟨j, hj, hg⟩ := hP2 pi hpi
      exact ⟨j, hj, hg.1.symm, hg.2.1⟩
    have hcs2 : copyPass (cleanInput s t3) t3
        = ⟨t3, [] ++ (walkRoot noFail s).map Prod.fst, [], [], false⟩ := by
      show (walkRoot noFail s).foldl (copyStep noFail) ⟨t3, [], [], [], false⟩ = _
      exact copyPass_inert noFail (walkRoot noFail s) t3 [] [] [] hgood
    have hcop : (rsyncRun (cleanInput s t3)).2.copied
        = (copyPass (cleanInput s t3) t3).copied := by
      rw [rsyncRun_eq, show (cleanInput s t3).target.getD .nil = t3 from rfl]
      split
      · rfl
      · rfl
    have habt2 : (copyPass (cleanInput s t3) t3).aborted = false := by
      rw [hcs2]
    have hdel : (rsyncRun (cleanInput s t3)).2.deleted
        = (deletePass (cleanInput s t3) (copyPass (cleanInput s t3) t3)).deleted := by
      rw [rsyncRun_eq, show (cleanInput s t3).target.getD .nil = t3 from rfl,
        if_neg (by simp [habt2])]
    constructor
    · rw [hcop, hcs2]
    · rw [hdel]
      have hwf2 : (copyPass (cleanInput s t3) t3).target.wf = true := by
        rw [hcs2]
        exact hP1
      obtain ⟨_, _, _, _, _, hD6₂⟩ :=
        deletePass_inv (cleanInput s t3) (copyPass (cleanInput s t3) t3) hwf2
      rw [List.eq_nil_iff_forall_not_mem]
      intro p hp
      obtain ⟨hmem, hns⟩ := hD6₂ p hp
      rw [hcs2] at hmem hns
      obtain ⟨pi2, hpi2, hpe⟩ := List.mem_map.mp hmem
      obtain ⟨hvis, hlk⟩ := walkRoot_mem_lookupFile hP1 hpi2
      have hnW : pi2.1 ∉ (walkRoot noFail s).map Prod.fst := by
        intro hc
        rw [hpe] at hc
        exact hns hc
      rw [hP4 pi2.1 hvis hnW] at hlk
      exact Option.noConfusion hlk
  · -- the first run's copy pass aborted at the walk entry `b`: the second
    -- run is inert up to `b`, aborts there too, and reports nothing
    have habt : (copyPass (cleanInput s t0) t0).aborted = true := by rw [hcs]
    have hrun1 : rsyncRun (cleanInput s t0)
        = ((copyPass (cleanInput s t0) t0).target,
            ⟨(copyPass (cleanInput s t0) t0).copied, [],
              (copyPass (cleanInput s t0) t0).errors⟩) := by
      rw [rsyncRun_eq, show (cleanInput s t0).target.getD .nil = t0 from rfl,
        if_pos habt]
    have h1 : (rsyncRun (cleanInput s t0)).1 = st1.target := by
      rw [hrun1, hcs]
    rw [h1]
    obtain ⟨_, _, _, _, hA51, _, _, _⟩ := hinv1
    have hgood1 : ∀ pi ∈ d1, ∃ j, st1.target.lookupFile pi.1 = some j ∧
        pi.2.size = j.size ∧ pi.2.mtime ≤ j.mtime := by
      intro pi hpi
      obtain ⟨j, hj, hg⟩ := hA51 pi hpi
      exact ⟨j, hj, hg.1.symm, hg.2.1⟩
    have hcs2 : copyPass (cleanInput s st1.target) st1.target
        = ⟨st1.target, ([] ++ d1.map Prod.fst) ++ [b.1], [],
            [] ++ [ErrEntry.general], true⟩ := by
      show (walkRoot noFail s).foldl (copyStep noFail)
        ⟨st1.target, [], [], [], false⟩ = _
      have hW2 : walkRoot noFail s = d1 ++ b :: d2 := hW
      rw [hW2, List.foldl_append, List.foldl_cons,
        copyPass_inert noFail d1 st1.target [] [] [] hgood1,
        copyStep_none_eq noFail ⟨st1.target, [] ++ d1.map Prod.fst, [], [], false⟩
          b rfl hmkb]
      exact foldl_copyStep_aborted noFail d2 _ rfl
    have habt2 : (copyPass (cleanInput s st1.target) st1.target).aborted = true := by
      rw [hcs2]
    have hrun2 : rsyncRun (cleanInput s st1.target)
        = ((copyPass (cleanInput s st1.target) st1.target).target,
            ⟨(copyPass (cleanInput s st1.target) st1.target).copied, [],
              (copyPass (cleanInput s st1.target) st1.target).errors⟩) := by
      rw [rsyncRun_eq,
        show (cleanInput s st1.target).target.getD .nil = st1.target from rfl,
        if_pos habt2]
    rw [hrun2, hcs2]
    exact ⟨rfl, rfl⟩

def exSourceC4 : FS := .file "a" ⟨4096, 10⟩ .nil

def exTargetC4 : FS := .dir "a" ⟨4096, 20⟩ .nil .nil

/-- Counterexample to the claim as stated: the target holds an empty
directory `a` whose own stat (`st_size` 4096, mtime 20) satisfies the
up-to-date comparison against the source file `a`, so the first run copies
nothing — and its prune pass then removes the empty directory, so the
second run finds no target path `a` and copies the file: `copied` on the
second run is `[["a"]]`, not `[]`. -/
theorem C4_counterexample :
    ¬ ((rsyncRun (cleanInput exSourceC4 (rsyncRun (cleanInput exSourceC4 exTargetC4)).1)).2.copied = [] ∧
      (rsyncRun (cleanInput exSourceC4 (rsyncRun (cleanInput exSourceC4 exTargetC4)).1)).2.deleted = []) := by
  decide

/-- Concrete instance of the amended C4: the walkthrough scenario's second
run copies and deletes nothing. -/
theorem C4_witness :
    exSourceC10.wf = true ∧ exTargetC10.wf = true ∧
    (∀ pi ∈ walkRoot noFail exSourceC10, exTargetC10.isDirAt pi.1 = false) ∧
    ((rsyncRun (cleanInput exSourceC10 (rsyncRun (cleanInput exSourceC10 exTargetC10)).1)).2.copied = [] ∧
      (rsyncRun (cleanInput exSourceC10 (rsyncRun (cleanInput exSourceC10 exTargetC10)).1)).2.deleted = []) :=
  ⟨by decide, by decide, by decide,
    C4_second_run_empty exSourceC10 exTargetC10 (by decide) (by decide) (by decide)⟩

end DocSync
